import Mathlib

/-!
Shallow embedding of a learned-index benchmark: a two-level recursive model
index (RMI, from src/rmi.h / rmi.cpp) and a bulk-loaded static B+tree
(BPTree, from bpt.h / bpt.cpp), both over an immutable sorted array of
64-bit keys.

Embedding conventions:
* C++ std::uint64_t keys and std::size_t positions become ℕ (no arithmetic
  in the source can overflow 64 bits on the inputs the structures accept,
  and every size_t subtraction in the source is guarded, so ℕ subtraction
  agrees with the C++ value).
* C++ double / long double arithmetic is embedded as exact ℚ arithmetic:
  the branch structure (including the 1e-12 degeneracy tolerance of
  fit_linear) is kept verbatim, with rounding error set to zero.
* Fallible operations return Except/Option: RMI::train's throw becomes
  Except.error, an out-of-bounds vector access in RMI::search becomes
  Except.error, and the (found, pos) out-parameter pair becomes Option ℕ.
* The source's loops are embedded as fuel-indexed structural recursions
  (so every definition evaluates inside the kernel), with the fuel chosen
  at the wrapper so that it never runs out; fuel-adequacy lemmas below
  recover the natural recursion equations.
-/

set_option maxHeartbeats 1000000

namespace LI

/-- Decidable equality for Except so that concrete runs can be checked. -/
instance {ε α : Type} [DecidableEq ε] [DecidableEq α] :
    DecidableEq (Except ε α) := fun x y =>
  match x, y with
  | .ok a, .ok b =>
    if h : a = b then .isTrue (by rw [h]) else .isFalse (by simp [h])
  | .error a, .error b =>
    if h : a = b then .isTrue (by rw [h]) else .isFalse (by simp [h])
  | .ok _, .error _ => .isFalse (by simp)
  | .error _, .ok _ => .isFalse (by simp)

/-- The 1e-12 degeneracy tolerance used by RMI::fit_linear. -/
def tol : ℚ := 1 / 10 ^ 12

/-- Sum of the x values (keys) as rationals: the sum_x accumulator. -/
def sumX (xs : List ℕ) : ℚ := (xs.map (fun (k : ℕ) => (k : ℚ))).sum

/-- Sum of the y values (positions) as rationals: the sum_y accumulator. -/
def sumY (ys : List ℕ) : ℚ := (ys.map (fun (k : ℕ) => (k : ℚ))).sum

/-- Sum of squares of the x values: the sum_x2 accumulator. -/
def sumX2 (xs : List ℕ) : ℚ := (xs.map (fun (k : ℕ) => (k : ℚ) * (k : ℚ))).sum

/-- Sum of the products x_i * y_i: the sum_xy accumulator. -/
def sumXY (xs ys : List ℕ) : ℚ :=
  ((xs.zip ys).map (fun (p : ℕ × ℕ) => (p.1 : ℚ) * (p.2 : ℚ))).sum

/-- The ordinary-least-squares denominator n·Σx² − (Σx)² of fit_linear. -/
def olsDenom (xs : List ℕ) : ℚ :=
  (xs.length : ℚ) * sumX2 xs - sumX xs * sumX xs

/-- RMI::fit_linear: OLS fit y ≈ a·x + b with the n = 0 and degenerate
denominator fallbacks.  Every call site passes x and y of equal length;
the C++ loop bound is x.size(), mirrored by zip / take. -/
def fit_linear (xs ys : List ℕ) : ℚ × ℚ :=
  if xs.length = 0 then (0, 0)
  else
    let n : ℚ := (xs.length : ℚ)
    let sx := sumX xs
    let sy := sumY (ys.take xs.length)
    let denom := n * sumX2 xs - sx * sx
    if |denom| < tol then (0, sy / n)
    else
      let num := n * sumXY xs ys - sx * sy
      let a := num / denom
      (a, (sy - a * sx) / n)

/-- The clamp_pos lambda shared by RMI::train and RMI::search: clamp a real
prediction into [0, n-1] (n > 0 at every use), truncating toward zero
(nonnegative branch, so truncation = floor). -/
def clamp_pos (n : ℕ) (p : ℚ) : ℕ :=
  if p < 0 then 0
  else if (n : ℚ) ≤ p then n - 1
  else (⌊p⌋).toNat

/-- One linear model (struct LinearModel): slope a, intercept b, covered
half-open index range [start_idx, end_idx), observed max_error. -/
structure LinearModel where
  a : ℚ
  b : ℚ
  start_idx : ℕ
  end_idx : ℕ
  max_error : ℕ
deriving Repr, DecidableEq

/-- State of an RMI object: num_leaves_, root_, leaves_. -/
structure RMIState where
  num_leaves : ℕ
  root : LinearModel
  leaves : List LinearModel
deriving Repr, DecidableEq

/-- The RMI constructor: root zeroed, leaves_ default-constructed empty. -/
def rmiInit (num_leaves : ℕ) : RMIState :=
  ⟨num_leaves, ⟨0, 0, 0, 0, 0⟩, []⟩

/-- Leaf-bucket id of a clamped position: pos * num_leaves / n, then the
defensive clamp to num_leaves - 1. -/
def bucketId (num_leaves n pos : ℕ) : ℕ :=
  let lid := pos * num_leaves / n
  if num_leaves ≤ lid then num_leaves - 1 else lid

/-- The leaf id the trained root model routes a key value to
(lines 111-117 of train and lines 174-179 of search use this formula). -/
def routeLeaf (root : LinearModel) (num_leaves n : ℕ) (key : ℕ) : ℕ :=
  bucketId num_leaves n (clamp_pos n (root.a * (key : ℚ) + root.b))

/-- The bucket of leaf l: the array indices i (in increasing order, as
pushed by the training loop) whose key routes to leaf l. -/
def bucket (root : LinearModel) (num_leaves : ℕ) (keys : List ℕ) (l : ℕ) :
    List ℕ :=
  (List.range keys.length).filter
    (fun i => routeLeaf root num_leaves keys.length (keys.getD i 0) = l)

/-- Absolute prediction error of a leaf model on array index i:
|clamp(a·key_i + b) − i| computed with the C++ ternary on size_t. -/
def leafErr (keys : List ℕ) (a b : ℚ) (i : ℕ) : ℕ :=
  let pos := clamp_pos keys.length (a * (keys.getD i 0 : ℚ) + b)
  if i < pos then pos - i else i - pos

/-- Build the leaf model of one bucket (step 3 of RMI::train): fit the
bucket, record min/max true index and the max observed error; an empty
bucket keeps the zero model. -/
def bucketLeaf (keys : List ℕ) (idxs : List ℕ) : LinearModel :=
  match idxs with
  | [] => ⟨0, 0, 0, 0, 0⟩
  | i0 :: _ =>
    let x := idxs.map (fun i => keys.getD i 0)
    let ab := fit_linear x idxs
    let me := (idxs.map (leafErr keys ab.1 ab.2)).foldl max 0
    let s := idxs.foldl min i0
    let e := idxs.foldl max i0
    ⟨ab.1, ab.2, s, e + 1, me⟩

/-- The root model RMI::train fits over the whole array (x = keys,
y = 0..n-1, range [0, n), max_error never consulted hence 0). -/
def rootModel (keys : List ℕ) : LinearModel :=
  let ab := fit_linear keys (List.range keys.length)
  ⟨ab.1, ab.2, 0, keys.length, 0⟩

/-- The leaves_ vector RMI::train builds: one model per bucket. -/
def trainedLeaves (num_leaves : ℕ) (keys : List ℕ) : List LinearModel :=
  (List.range num_leaves).map
    (fun l => bucketLeaf keys (bucket (rootModel keys) num_leaves keys l))

/-- RMI::train: throws on an empty key array, otherwise fits the root over
the whole array, partitions indices into leaf buckets by the root's
prediction, and fits one model per non-empty bucket. -/
def rmiTrain (st : RMIState) (keys : List ℕ) : Except String RMIState :=
  if keys.length = 0 then .error "RMI::train: empty keys"
  else
    .ok ⟨st.num_leaves, rootModel keys, trainedLeaves st.num_leaves keys⟩

/-- The closed search window [lo, hi] RMI::search derives from a leaf:
the leaf's own [start_idx, end_idx−1], narrowed (never widened) by
[p − max_error, p + max_error] when max_error > 0. -/
def rmiWindow (leaf : LinearModel) (n : ℕ) (key : ℕ) : ℕ × ℕ :=
  let p := clamp_pos n (leaf.a * (key : ℚ) + leaf.b)
  let lo := leaf.start_idx
  let hi := if leaf.end_idx = 0 then 0 else leaf.end_idx - 1
  if 0 < leaf.max_error then
    let left := if leaf.max_error < p then p - leaf.max_error else 0
    let right := min (p + leaf.max_error) (n - 1)
    (if lo < left then left else lo, if right < hi then right else hi)
  else (lo, hi)

/-- Fuel-indexed body of the closed-interval binary search of RMI::search
(step 3): searches keys on [lo, hi] for an exact match, with the mid == 0
break guarding the size_t underflow of hi = mid - 1. -/
def binSearchF (keys : List ℕ) (key : ℕ) : ℕ → ℕ → ℕ → Option ℕ
  | 0, _, _ => none
  | fuel + 1, lo, hi =>
    if lo ≤ hi then
      let mid := (lo + hi) / 2
      let mk := keys.getD mid 0
      if key < mk then
        if mid = 0 then none else binSearchF keys key fuel lo (mid - 1)
      else if mk < key then binSearchF keys key fuel (mid + 1) hi
      else some mid
    else none

/-- The binary search loop of RMI::search; hi + 1 - lo fuel always
suffices (each iteration shrinks the interval). -/
def binSearchRMI (keys : List ℕ) (key : ℕ) (lo hi : ℕ) : Option ℕ :=
  binSearchF keys key (hi + 1 - lo) lo hi

/-- RMI::search: returns Except.error exactly where the C++ performs the
unchecked vector access leaves_[leaf_id] out of bounds (undefined
behavior); otherwise Option ℕ is the (found, pos) pair. -/
def rmiSearch (st : RMIState) (keys : List ℕ) (key : ℕ) :
    Except String (Option ℕ) :=
  let n := keys.length
  if n = 0 then .ok none
  else
    let leaf_id := routeLeaf st.root st.num_leaves n key
    match st.leaves.get? leaf_id with
    | none => .error "RMI::search: leaf access out of bounds"
    | some leaf =>
      let w := rmiWindow leaf n key
      .ok (binSearchRMI keys key w.1 w.2)

/-- A static B+tree node (struct BPTreeNode), as the tagged variant the
is_leaf flag encodes: a leaf stores parallel keys/positions (children in
the source doubles as the position vector of a leaf), an internal node
stores split keys and child pointers.  min_key is the cached subtree
minimum; the next-leaf link plays no role in search and is omitted. -/
inductive BPNode where
  | leaf (min_key : ℕ) (keys : List ℕ) (positions : List ℕ) : BPNode
  | internal (min_key : ℕ) (keys : List ℕ) (children : List BPNode) : BPNode
deriving Repr

instance : Inhabited BPNode := ⟨.leaf 0 [] []⟩

/-- Cached min_key field of a node. -/
def nodeMin : BPNode → ℕ
  | .leaf mk _ _ => mk
  | .internal mk _ _ => mk

/-- Fuel-indexed body of the grouping loop: split a list into consecutive
runs of up to ord elements. -/
def chunksF (ord : ℕ) : ℕ → List α → List (List α)
  | _, [] => []
  | 0, _ :: _ => []
  | fuel + 1, x :: xs =>
    (x :: xs.take (ord - 1)) :: chunksF ord fuel (xs.drop (ord - 1))

/-- Split a list into consecutive runs of up to ord elements (the grouping
loop of bulk_load; every call has ord ≥ 1 since the source loop advances
by min(i + order, n) − i ≥ 1 there). -/
def chunks (ord : ℕ) (l : List α) : List (List α) := chunksF ord l.length l

/-- The contiguous sub-array keys[s..e) of the original key array. -/
def slice (keys : List ℕ) (s e : ℕ) : List ℕ := (keys.drop s).take (e - s)

/-- Build one internal node from a run of child nodes: min_key = first
child's min_key, split keys = min_key of every child except the first. -/
def mkInternalNode (run : List BPNode) : BPNode :=
  .internal ((run.map nodeMin).headD 0) ((run.drop 1).map nodeMin) run

/-- The bottom-up level loop of bulk_load (while level.size() > 1).  The
fuel argument makes the loop total; with ord ≥ 2 each round strictly
shrinks the level, so fuel = level length always suffices. -/
def buildUp (ord : ℕ) : ℕ → List BPNode → Option BPNode
  | _, [] => none
  | _, [t] => some t
  | 0, _ :: _ :: _ => none
  | fuel + 1, t1 :: t2 :: ts =>
    buildUp ord fuel ((chunks ord (t1 :: t2 :: ts)).map mkInternalNode)

/-- The leaf-building loop of bulk_load (while i < n), fuel-indexed: from
position i, emit a leaf holding keys[i, min(i+order, n)) together with
their original positions and min_key = first key of the run, then
continue from the end of the run.  keys.length fuel always suffices when
ord ≥ 1. -/
def leafLevel (keys : List ℕ) (ord : ℕ) : ℕ → ℕ → List BPNode
  | 0, _ => []
  | fuel + 1, i =>
    if i < keys.length then
      let e := min (i + ord) keys.length
      .leaf (keys.getD i 0) (slice keys i e) (List.range' i (e - i)) ::
        leafLevel keys ord fuel e
    else []

/-- BPTree::bulk_load: an empty array yields an empty tree (no root);
otherwise build the leaf layer left to right and build upward. -/
def bulkLoad (ord : ℕ) (keys : List ℕ) : Option BPNode :=
  if keys.length = 0 then none
  else
    let lvs := leafLevel keys ord keys.length 0
    buildUp ord lvs.length lvs

/-- Fuel-indexed body of the descent binary search of BPTree::search
step 1: first index in [lo, hi) whose split key is strictly greater than
the query. -/
def upperBoundF (ks : List ℕ) (key : ℕ) : ℕ → ℕ → ℕ → ℕ
  | 0, lo, _ => lo
  | fuel + 1, lo, hi =>
    if lo < hi then
      let mid := (lo + hi) / 2
      if key < ks.getD mid 0 then upperBoundF ks key fuel lo mid
      else upperBoundF ks key fuel (mid + 1) hi
    else lo

/-- The descent binary search of BPTree::search step 1. -/
def upperBound (ks : List ℕ) (key : ℕ) (lo hi : ℕ) : ℕ :=
  upperBoundF ks key (hi - lo) lo hi

/-- Fuel-indexed body of the in-leaf binary search of BPTree::search
step 2 on [lo, hi). -/
def leafSearchF (ks : List ℕ) (key : ℕ) : ℕ → ℕ → ℕ → Option ℕ
  | 0, _, _ => none
  | fuel + 1, lo, hi =>
    if lo < hi then
      let mid := (lo + hi) / 2
      if key < ks.getD mid 0 then leafSearchF ks key fuel lo mid
      else if ks.getD mid 0 < key then leafSearchF ks key fuel (mid + 1) hi
      else some mid
    else none

/-- The in-leaf binary search of BPTree::search step 2 on [lo, hi). -/
def leafSearch (ks : List ℕ) (key : ℕ) (lo hi : ℕ) : Option ℕ :=
  leafSearchF ks key (hi - lo) lo hi

mutual

/-- BPTree::search on a non-null node: descend through internal nodes by
upperBound (clamping the child index to the last child), then binary
search the leaf; on a match return the stored original position.
Descending when child_ptrs is empty is undefined behavior in the source;
here it returns none (unreachable on built trees). -/
def bptSearchNode : BPNode → ℕ → Option ℕ
  | .leaf _ ks ps, key =>
    (leafSearch ks key 0 ks.length).map (fun m => ps.getD m 0)
  | .internal _ ks cs, key =>
    let ci0 := upperBound ks key 0 ks.length
    let ci := if cs.length ≤ ci0 then cs.length - 1 else ci0
    bptSearchChild cs ci key
termination_by structural t => t

/-- Dispatch the descent to child number ci of an internal node. -/
def bptSearchChild : List BPNode → ℕ → ℕ → Option ℕ
  | [], _, _ => none
  | c :: _, 0, key => bptSearchNode c key
  | _ :: cs, i + 1, key => bptSearchChild cs i key
termination_by structural l => l

end

/-- BPTree::search including the null-root fast path. -/
def bptSearch (root : Option BPNode) (key : ℕ) : Option ℕ :=
  match root with
  | none => none
  | some t => bptSearchNode t key

mutual

/-- Structural invariant of bulk-loaded subtrees: the node covers exactly
positions [s, e) of the key array — a leaf stores that slice and its
positions verbatim, an internal node's children cover consecutive
subranges (their start positions listed by the chain), the split keys
are the keys at the non-first children's start positions, min_key is the
key at s, and fan-out never exceeds ord. -/
def CoversB (keys : List ℕ) (ord : ℕ) : BPNode → ℕ → ℕ → Prop
  | .leaf mk ks ps, s, e =>
    s < e ∧ e ≤ keys.length ∧ mk = keys.getD s 0 ∧
    ks = slice keys s e ∧ ps = List.range' s (e - s)
  | .internal mk ks cs, s, e =>
    mk = keys.getD s 0 ∧ cs.length ≤ ord ∧
    ∃ ss : List ℕ, ks = ss.map (fun t => keys.getD t 0) ∧
      CoversChain keys ord cs (s :: ss) e
termination_by structural t => t

/-- A run of sibling nodes covering consecutive subranges: ss lists their
start positions, the run ends at e. -/
def CoversChain (keys : List ℕ) (ord : ℕ) : List BPNode → List ℕ → ℕ → Prop
  | [], ss, _ => ss = []
  | c :: cs, ss, e =>
    ∃ s ss2, ss = s :: ss2 ∧ CoversB keys ord c s (ss2.headD e) ∧
      CoversChain keys ord cs ss2 e
termination_by structural l => l

end

mutual

/-- All keys stored in the leaves of a subtree, left to right. -/
def subtreeKeys : BPNode → List ℕ
  | .leaf _ ks _ => ks
  | .internal _ _ cs => subtreeKeysList cs
termination_by structural t => t

/-- All keys stored under a list of sibling subtrees. -/
def subtreeKeysList : List BPNode → List ℕ
  | [] => []
  | c :: cs => subtreeKeys c ++ subtreeKeysList cs
termination_by structural l => l

end

mutual

/-- Every node of a subtree (the node itself and all descendants). -/
def allNodes : BPNode → List BPNode
  | .leaf mk ks ps => [.leaf mk ks ps]
  | .internal mk ks cs => .internal mk ks cs :: allNodesList cs
termination_by structural t => t

/-- Every node under a list of sibling subtrees. -/
def allNodesList : List BPNode → List BPNode
  | [] => []
  | c :: cs => allNodes c ++ allNodesList cs
termination_by structural l => l

end

mutual

/-- The packing property claimed by the spec, checked on a whole subtree:
every internal node has between 2 and ord children. -/
def packedFrom (ord : ℕ) : BPNode → Bool
  | .leaf _ _ _ => true
  | .internal _ _ cs =>
    (decide (2 ≤ cs.length) && decide (cs.length ≤ ord)) &&
      packedFromList ord cs
termination_by structural t => t

/-- packedFrom over a list of sibling subtrees. -/
def packedFromList (ord : ℕ) : List BPNode → Bool
  | [] => true
  | c :: cs => packedFrom ord c && packedFromList ord cs
termination_by structural l => l

end

/-- The start positions of the groups a level's start list is split into
by the grouping loop (head of every chunk). -/
def firsts (ord : ℕ) (l : List ℕ) : List ℕ :=
  (chunks ord l).map (fun c => c.headD 0)

/-- The spec's claimed tree packing invariant, with the root itself
exempted from the lower bound ("except a singleton root"): every
non-root internal node has between 2 and ord children. -/
def claimedPacking (ord : ℕ) (t : Option BPNode) : Bool :=
  match t with
  | none => true
  | some (.leaf _ _ _) => true
  | some (.internal _ _ cs) => decide (cs.length ≤ ord) && packedFromList ord cs

end LI

namespace LI

/-! ### Generic list helpers -/

lemma sorted_getD_le {keys : List ℕ} (hs : keys.Sorted (· ≤ ·))
    {i j : ℕ} (hij : i ≤ j) (hj : j < keys.length) :
    keys.getD i 0 ≤ keys.getD j 0 := by
  have hi : i < keys.length := lt_of_le_of_lt hij hj
  rw [List.getD_eq_getElem?_getD, List.getD_eq_getElem?_getD,
    List.getElem?_eq_getElem hi, List.getElem?_eq_getElem hj]
  simpa using hs.rel_get_of_le (a := ⟨i, hi⟩) (b := ⟨j, hj⟩) hij

lemma foldl_min_le_init : ∀ (l : List ℕ) (b : ℕ), l.foldl min b ≤ b := by
  intro l
  induction l with
  | nil => simp
  | cons x xs ih =>
    intro b
    calc (x :: xs).foldl min b = xs.foldl min (min b x) := rfl
    _ ≤ min b x := ih _
    _ ≤ b := min_le_left _ _

lemma foldl_min_le_mem {a : ℕ} :
    ∀ (l : List ℕ) (b : ℕ), a ∈ l → l.foldl min b ≤ a := by
  intro l
  induction l with
  | nil => intro b h; cases h
  | cons x xs ih =>
    intro b h
    rcases List.mem_cons.mp h with rfl | h
    · exact le_trans (foldl_min_le_init xs (min b a)) (min_le_right _ _)
    · exact ih _ h

lemma init_le_foldl_max : ∀ (l : List ℕ) (b : ℕ), b ≤ l.foldl max b := by
  intro l
  induction l with
  | nil => simp
  | cons x xs ih =>
    intro b
    calc b ≤ max b x := le_max_left _ _
    _ ≤ xs.foldl max (max b x) := ih _
    _ = (x :: xs).foldl max b := rfl

lemma mem_le_foldl_max {a : ℕ} :
    ∀ (l : List ℕ) (b : ℕ), a ∈ l → a ≤ l.foldl max b := by
  intro l
  induction l with
  | nil => intro b h; cases h
  | cons x xs ih =>
    intro b h
    rcases List.mem_cons.mp h with rfl | h
    · exact le_trans (le_max_right _ _) (init_le_foldl_max xs (max b a))
    · exact ih _ h

lemma foldl_min_mem : ∀ (l : List ℕ) (b : ℕ), l.foldl min b = b ∨ l.foldl min b ∈ l := by
  intro l
  induction l with
  | nil => intro b; exact Or.inl rfl
  | cons x xs ih =>
    intro b
    have h0 : (x :: xs).foldl min b = xs.foldl min (min b x) := rfl
    rcases ih (min b x) with h | h
    · rcases min_cases b x with ⟨he, _⟩ | ⟨he, _⟩
      · exact Or.inl (by rw [h0, h, he])
      · refine Or.inr ?_
        rw [h0, h, he]
        exact List.mem_cons_self _ _
    · exact Or.inr (List.mem_cons_of_mem _ (h0 ▸ h))

lemma foldl_max_mem : ∀ (l : List ℕ) (b : ℕ), l.foldl max b = b ∨ l.foldl max b ∈ l := by
  intro l
  induction l with
  | nil => intro b; exact Or.inl rfl
  | cons x xs ih =>
    intro b
    have h0 : (x :: xs).foldl max b = xs.foldl max (max b x) := rfl
    rcases ih (max b x) with h | h
    · rcases max_cases b x with ⟨he, _⟩ | ⟨he, _⟩
      · exact Or.inl (by rw [h0, h, he])
      · refine Or.inr ?_
        rw [h0, h, he]
        exact List.mem_cons_self _ _
    · exact Or.inr (List.mem_cons_of_mem _ (h0 ▸ h))

/-! ### Binary search (RMI closed-interval loop) -/

lemma binSearchF_congr (keys : List ℕ) (key : ℕ) :
    ∀ f1 f2 lo hi, hi + 1 - lo ≤ f1 → hi + 1 - lo ≤ f2 →
      binSearchF keys key f1 lo hi = binSearchF keys key f2 lo hi := by
  intro f1
  induction f1 with
  | zero =>
    intro f2 lo hi h1 h2
    have hlo : ¬ lo ≤ hi := by omega
    cases f2 with
    | zero => rfl
    | succ b => simp [binSearchF, hlo]
  | succ a ih =>
    intro f2 lo hi h1 h2
    cases f2 with
    | zero =>
      have hlo : ¬ lo ≤ hi := by omega
      simp [binSearchF, hlo]
    | succ b =>
      simp only [binSearchF]
      by_cases hlo : lo ≤ hi
      · simp only [hlo, if_true]
        have hmid1 : lo ≤ (lo + hi) / 2 := by omega
        have hmid2 : (lo + hi) / 2 ≤ hi := by omega
        by_cases hk : key < keys.getD ((lo + hi) / 2) 0
        · simp only [hk, if_true]
          by_cases hz : (lo + hi) / 2 = 0
          · simp [hz]
          · simp only [hz, if_false]
            exact ih b lo ((lo + hi) / 2 - 1) (by omega) (by omega)
        · simp only [hk, if_false]
          by_cases hk2 : keys.getD ((lo + hi) / 2) 0 < key
          · simp only [hk2, if_true]
            exact ih b ((lo + hi) / 2 + 1) hi (by omega) (by omega)
          · simp only [hk2, if_false]
      · simp [hlo]

lemma binSearchF_sound (keys : List ℕ) (key : ℕ) :
    ∀ fuel lo hi m, binSearchF keys key fuel lo hi = some m →
      keys.getD m 0 = key ∧ lo ≤ m ∧ m ≤ hi := by
  intro fuel
  induction fuel with
  | zero => intro lo hi m h; simp [binSearchF] at h
  | succ a ih =>
    intro lo hi m h
    simp only [binSearchF] at h
    by_cases hlo : lo ≤ hi
    · simp only [hlo, if_true] at h
      have hmid1 : lo ≤ (lo + hi) / 2 := by omega
      have hmid2 : (lo + hi) / 2 ≤ hi := by omega
      by_cases hk : key < keys.getD ((lo + hi) / 2) 0
      · simp only [hk, if_true] at h
        by_cases hz : (lo + hi) / 2 = 0
        · simp [hz] at h
        · simp only [hz, if_false] at h
          obtain ⟨h1, h2, h3⟩ := ih _ _ _ h
          exact ⟨h1, h2, by omega⟩
      · simp only [hk, if_false] at h
        by_cases hk2 : keys.getD ((lo + hi) / 2) 0 < key
        · simp only [hk2, if_true] at h
          obtain ⟨h1, h2, h3⟩ := ih _ _ _ h
          exact ⟨h1, by omega, h3⟩
        · simp only [hk2, if_false, Option.some.injEq] at h
          subst h
          exact ⟨le_antisymm (not_lt.mp hk) (not_lt.mp hk2), hmid1, hmid2⟩
    · simp [hlo] at h

lemma binSearchF_found {keys : List ℕ} (hs : keys.Sorted (· ≤ ·)) (key : ℕ) :
    ∀ fuel lo hi j, hi + 1 - lo ≤ fuel → lo ≤ j → j ≤ hi →
      hi < keys.length → keys.getD j 0 = key →
      ∃ m, binSearchF keys key fuel lo hi = some m := by
  intro fuel
  induction fuel with
  | zero => intro lo hi j hf h1 h2 _ _; omega
  | succ a ih =>
    intro lo hi j hf h1 h2 hhi hkey
    have hlo : lo ≤ hi := le_trans h1 h2
    simp only [binSearchF, hlo, if_true]
    have hmid1 : lo ≤ (lo + hi) / 2 := by omega
    have hmid2 : (lo + hi) / 2 ≤ hi := by omega
    by_cases hk : key < keys.getD ((lo + hi) / 2) 0
    · simp only [hk, if_true]
      have hj : j < (lo + hi) / 2 := by
        by_contra hcon
        have := sorted_getD_le hs (not_lt.mp hcon) (lt_of_le_of_lt h2 hhi)
        omega
      have hz : (lo + hi) / 2 ≠ 0 := by omega
      simp only [hz, if_false]
      exact ih lo ((lo + hi) / 2 - 1) j (by omega) h1 (by omega) (by omega) hkey
    · simp only [hk, if_false]
      by_cases hk2 : keys.getD ((lo + hi) / 2) 0 < key
      · simp only [hk2, if_true]
        have hj : (lo + hi) / 2 < j := by
          by_contra hcon
          have := sorted_getD_le hs (not_lt.mp hcon) (lt_of_le_of_lt hmid2 hhi)
          omega
        exact ih ((lo + hi) / 2 + 1) hi j (by omega) (by omega) h2 hhi hkey
      · exact ⟨(lo + hi) / 2, by simp only [hk2, if_false]⟩

lemma binSearchRMI_sound {keys : List ℕ} {key lo hi m : ℕ}
    (h : binSearchRMI keys key lo hi = some m) :
    keys.getD m 0 = key ∧ lo ≤ m ∧ m ≤ hi :=
  binSearchF_sound keys key _ lo hi m h

lemma binSearchRMI_found {keys : List ℕ} (hs : keys.Sorted (· ≤ ·))
    {key lo hi j : ℕ} (h1 : lo ≤ j) (h2 : j ≤ hi) (hhi : hi < keys.length)
    (hkey : keys.getD j 0 = key) :
    ∃ m, binSearchRMI keys key lo hi = some m :=
  binSearchF_found hs key _ lo hi j le_rfl h1 h2 hhi hkey

end LI

namespace LI

/-! ### Descent and in-leaf binary searches of the B+tree -/

lemma upperBoundF_spec {ks : List ℕ} (hs : ks.Sorted (· ≤ ·)) (key : ℕ) :
    ∀ fuel lo hi, hi - lo ≤ fuel → lo ≤ hi → hi ≤ ks.length →
      lo ≤ upperBoundF ks key fuel lo hi ∧
      upperBoundF ks key fuel lo hi ≤ hi ∧
      (∀ t, lo ≤ t → t < upperBoundF ks key fuel lo hi → ks.getD t 0 ≤ key) ∧
      (∀ t, upperBoundF ks key fuel lo hi ≤ t → t < hi → key < ks.getD t 0) := by
  intro fuel
  induction fuel with
  | zero =>
    intro lo hi hf hlo hhi
    have : lo = hi := by omega
    subst this
    simp only [upperBoundF]
    exact ⟨le_rfl, le_rfl, fun t h1 h2 => by omega, fun t h1 h2 => by omega⟩
  | succ a ih =>
    intro lo hi hf hlo hhi
    simp only [upperBoundF]
    by_cases hlt : lo < hi
    · simp only [hlt, if_true]
      have hmid1 : lo ≤ (lo + hi) / 2 := by omega
      have hmid2 : (lo + hi) / 2 < hi := by omega
      by_cases hk : key < ks.getD ((lo + hi) / 2) 0
      · simp only [hk, if_true]
        obtain ⟨r1, r2, r3, r4⟩ := ih lo ((lo + hi) / 2) (by omega) hmid1 (by omega)
        refine ⟨r1, by omega, r3, fun t h1 h2 => ?_⟩
        by_cases hcase : t < (lo + hi) / 2
        · exact r4 t h1 hcase
        · exact lt_of_lt_of_le hk
            (sorted_getD_le hs (not_lt.mp hcase) (lt_of_lt_of_le h2 hhi))
      · simp only [hk, if_false]
        obtain ⟨r1, r2, r3, r4⟩ := ih ((lo + hi) / 2 + 1) hi (by omega) (by omega) hhi
        refine ⟨by omega, r2, fun t h1 h2 => ?_, r4⟩
        by_cases hcase : (lo + hi) / 2 + 1 ≤ t
        · exact r3 t hcase h2
        · exact le_trans
            (sorted_getD_le hs (by omega) (lt_of_lt_of_le hmid2 hhi))
            (not_lt.mp hk)
    · simp only [hlt, if_false]
      have : lo = hi := by omega
      subst this
      exact ⟨le_rfl, le_rfl, fun t h1 h2 => by omega, fun t h1 h2 => by omega⟩

lemma upperBound_spec {ks : List ℕ} (hs : ks.Sorted (· ≤ ·)) (key : ℕ) :
    lo ≤ hi → hi ≤ ks.length →
      lo ≤ upperBound ks key lo hi ∧
      upperBound ks key lo hi ≤ hi ∧
      (∀ t, lo ≤ t → t < upperBound ks key lo hi → ks.getD t 0 ≤ key) ∧
      (∀ t, upperBound ks key lo hi ≤ t → t < hi → key < ks.getD t 0) :=
  fun h1 h2 => upperBoundF_spec hs key _ lo hi le_rfl h1 h2

lemma leafSearchF_sound (ks : List ℕ) (key : ℕ) :
    ∀ fuel lo hi m, leafSearchF ks key fuel lo hi = some m →
      ks.getD m 0 = key ∧ lo ≤ m ∧ m < hi := by
  intro fuel
  induction fuel with
  | zero => intro lo hi m h; simp [leafSearchF] at h
  | succ a ih =>
    intro lo hi m h
    simp only [leafSearchF] at h
    by_cases hlo : lo < hi
    · simp only [hlo, if_true] at h
      have hmid1 : lo ≤ (lo + hi) / 2 := by omega
      have hmid2 : (lo + hi) / 2 < hi := by omega
      by_cases hk : key < ks.getD ((lo + hi) / 2) 0
      · simp only [hk, if_true] at h
        obtain ⟨h1, h2, h3⟩ := ih _ _ _ h
        exact ⟨h1, h2, by omega⟩
      · simp only [hk, if_false] at h
        by_cases hk2 : ks.getD ((lo + hi) / 2) 0 < key
        · simp only [hk2, if_true] at h
          obtain ⟨h1, h2, h3⟩ := ih _ _ _ h
          exact ⟨h1, by omega, h3⟩
        · simp only [hk2, if_false, Option.some.injEq] at h
          subst h
          exact ⟨le_antisymm (not_lt.mp hk) (not_lt.mp hk2), hmid1, hmid2⟩
    · simp [hlo] at h

lemma leafSearchF_found {ks : List ℕ} (hs : ks.Sorted (· ≤ ·)) (key : ℕ) :
    ∀ fuel lo hi j, hi - lo ≤ fuel → lo ≤ j → j < hi → hi ≤ ks.length →
      ks.getD j 0 = key →
      ∃ m, leafSearchF ks key fuel lo hi = some m := by
  intro fuel
  induction fuel with
  | zero => intro lo hi j hf h1 h2 _ _; omega
  | succ a ih =>
    intro lo hi j hf h1 h2 hhi hkey
    have hlo : lo < hi := lt_of_le_of_lt h1 h2
    simp only [leafSearchF, hlo, if_true]
    have hmid1 : lo ≤ (lo + hi) / 2 := by omega
    have hmid2 : (lo + hi) / 2 < hi := by omega
    by_cases hk : key < ks.getD ((lo + hi) / 2) 0
    · simp only [hk, if_true]
      have hj : j < (lo + hi) / 2 := by
        by_contra hcon
        have := sorted_getD_le hs (not_lt.mp hcon) (lt_of_lt_of_le h2 hhi)
        omega
      exact ih lo ((lo + hi) / 2) j (by omega) h1 hj (by omega) hkey
    · simp only [hk, if_false]
      by_cases hk2 : ks.getD ((lo + hi) / 2) 0 < key
      · simp only [hk2, if_true]
        have hj : (lo + hi) / 2 < j := by
          by_contra hcon
          have := sorted_getD_le hs (not_lt.mp hcon) (lt_of_lt_of_le hmid2 hhi)
          omega
        exact ih ((lo + hi) / 2 + 1) hi j (by omega) (by omega) h2 hhi hkey
      · exact ⟨(lo + hi) / 2, by simp only [hk2, if_false]⟩

lemma leafSearch_sound {ks : List ℕ} {key lo hi m : ℕ}
    (h : leafSearch ks key lo hi = some m) :
    ks.getD m 0 = key ∧ lo ≤ m ∧ m < hi :=
  leafSearchF_sound ks key _ lo hi m h

lemma leafSearch_found {ks : List ℕ} (hs : ks.Sorted (· ≤ ·))
    {key lo hi j : ℕ} (h1 : lo ≤ j) (h2 : j < hi) (hhi : hi ≤ ks.length)
    (hkey : ks.getD j 0 = key) :
    ∃ m, leafSearch ks key lo hi = some m :=
  leafSearchF_found hs key _ lo hi j le_rfl h1 h2 hhi hkey

end LI

namespace LI

/-! ### Chunking and level construction -/

lemma chunksF_congr {α : Type} (ord : ℕ) :
    ∀ f1 f2 (l : List α), l.length ≤ f1 → l.length ≤ f2 →
      chunksF ord f1 l = chunksF ord f2 l := by
  intro f1
  induction f1 with
  | zero =>
    intro f2 l h1 h2
    have : l = [] := List.length_eq_zero.mp (by omega)
    subst this
    cases f2 <;> rfl
  | succ a ih =>
    intro f2 l h1 h2
    cases l with
    | nil => cases f2 <;> rfl
    | cons x xs =>
      cases f2 with
      | zero => simp at h2
      | succ b =>
        simp only [chunksF]
        have hd : (xs.drop (ord - 1)).length ≤ xs.length := by
          simp [List.length_drop]
        refine congrArg _ (ih b (xs.drop (ord - 1)) ?_ ?_) <;>
          simp at h1 h2 <;> omega

lemma chunks_nil {α : Type} (ord : ℕ) : chunks ord ([] : List α) = [] := rfl

lemma chunks_cons {α : Type} (ord : ℕ) (x : α) (xs : List α) :
    chunks ord (x :: xs) =
      (x :: xs.take (ord - 1)) :: chunks ord (xs.drop (ord - 1)) := by
  show chunksF ord (xs.length + 1) (x :: xs) = _
  simp only [chunksF]
  refine congrArg _ (chunksF_congr ord _ _ _ ?_ ?_) <;>
    simp [List.length_drop]

lemma chunks_flatten {α : Type} (ord : ℕ) :
    ∀ n (l : List α), l.length ≤ n → (chunks ord l).flatten = l := by
  intro n
  induction n with
  | zero =>
    intro l h
    have : l = [] := List.length_eq_zero.mp (by omega)
    subst this; rfl
  | succ m ih =>
    intro l h
    cases l with
    | nil => rfl
    | cons x xs =>
      rw [chunks_cons]
      simp only [List.flatten_cons]
      rw [ih (xs.drop (ord - 1)) (by simp [List.length_drop]; simp at h; omega)]
      simp [List.take_append_drop]

lemma chunks_mem_len {α : Type} {ord : ℕ} (hord : 1 ≤ ord) :
    ∀ n (l : List α) c, l.length ≤ n → c ∈ chunks ord l →
      1 ≤ c.length ∧ c.length ≤ ord := by
  intro n
  induction n with
  | zero =>
    intro l c h hc
    have : l = [] := List.length_eq_zero.mp (by omega)
    subst this; cases hc
  | succ m ih =>
    intro l c h hc
    cases l with
    | nil => cases hc
    | cons x xs =>
      rw [chunks_cons] at hc
      rcases List.mem_cons.mp hc with rfl | hc
      · constructor
        · simp
        · simp only [List.length_cons, List.length_take]
          omega
      · exact ih (xs.drop (ord - 1)) c
          (by simp [List.length_drop]; simp at h; omega) hc

lemma chunks_ne_nil {α : Type} (ord : ℕ) (x : α) (xs : List α) :
    chunks ord (x :: xs) ≠ [] := by
  rw [chunks_cons]; simp

lemma chunks_len_lt {α : Type} {ord : ℕ} (hord : 2 ≤ ord) :
    ∀ n (l : List α), l.length ≤ n → 2 ≤ l.length →
      (chunks ord l).length < l.length := by
  intro n
  induction n with
  | zero => intro l h h2; omega
  | succ m ih =>
    intro l h h2
    cases l with
    | nil => simp at h2
    | cons x xs =>
      rw [chunks_cons]
      simp only [List.length_cons]
      have hdlen : (xs.drop (ord - 1)).length = xs.length - (ord - 1) := by
        simp [List.length_drop]
      have hx1 : 1 ≤ xs.length := by simp at h2; omega
      by_cases hcase : 2 ≤ (xs.drop (ord - 1)).length
      · have := ih (xs.drop (ord - 1)) (by simp at h; omega) hcase
        omega
      · -- the remainder has 0 or 1 elements: at most one further chunk
        have hone : (chunks ord (xs.drop (ord - 1))).length ≤ 1 := by
          cases hdd : xs.drop (ord - 1) with
          | nil => simp [chunks_nil]
          | cons y ys =>
            have hys : ys = [] := by
              have hl := congrArg List.length hdd
              rw [hdlen] at hl
              simp at hl
              exact List.length_eq_zero.mp (by omega)
            subst hys
            rw [chunks_cons]
            simp [chunks_nil]
        rcases Nat.lt_or_ge (xs.drop (ord - 1)).length 1 with hd0 | hd1
        · -- remainder empty: exactly one chunk total
          have hz : (chunks ord (xs.drop (ord - 1))).length = 0 := by
            have : xs.drop (ord - 1) = [] := List.length_eq_zero.mp (by omega)
            rw [this, chunks_nil]
            rfl
          omega
        · -- remainder nonempty: xs.length ≥ ord, so xs.length ≥ 2
          have : ord - 1 ≤ xs.length := by omega
          omega

lemma buildUp_some {ord : ℕ} (hord : 2 ≤ ord) :
    ∀ fuel (lvl : List BPNode), lvl ≠ [] → lvl.length ≤ fuel + 1 →
      ∃ t, buildUp ord fuel lvl = some t := by
  intro fuel
  induction fuel with
  | zero =>
    intro lvl hne hlen
    cases lvl with
    | nil => exact absurd rfl hne
    | cons t ts =>
      cases ts with
      | nil => exact ⟨t, rfl⟩
      | cons t2 ts2 => simp at hlen
  | succ a ih =>
    intro lvl hne hlen
    cases lvl with
    | nil => exact absurd rfl hne
    | cons t1 ts =>
      cases ts with
      | nil => exact ⟨t1, rfl⟩
      | cons t2 ts2 =>
        simp only [buildUp]
        have hlt := chunks_len_lt hord (t1 :: t2 :: ts2).length _ le_rfl (by simp)
        have hne2 : (chunks ord (t1 :: t2 :: ts2)).map mkInternalNode ≠ [] := by
          simp only [ne_eq, List.map_eq_nil]
          exact chunks_ne_nil ord _ _
        refine ih _ hne2 ?_
        simp only [List.length_map]
        simp only [List.length_cons] at hlt hlen ⊢
        omega

end LI

namespace LI

/-! ### fit_linear basic facts -/

lemma sumX_const {c : ℕ} : ∀ (xs : List ℕ), (∀ x ∈ xs, x = c) →
    sumX xs = (xs.length : ℚ) * (c : ℚ) := by
  intro xs
  induction xs with
  | nil => intro _; simp [sumX]
  | cons x txs ih =>
    intro h
    have hx : x = c := h x (List.mem_cons_self _ _)
    have ht := ih (fun y hy => h y (List.mem_cons_of_mem _ hy))
    have hstep : sumX (x :: txs) = (x : ℚ) + sumX txs := by
      unfold sumX
      rw [List.map_cons, List.sum_cons]
    rw [hstep, ht, hx, List.length_cons]
    push_cast
    ring

lemma sumX2_const {c : ℕ} : ∀ (xs : List ℕ), (∀ x ∈ xs, x = c) →
    sumX2 xs = (xs.length : ℚ) * ((c : ℚ) * (c : ℚ)) := by
  intro xs
  induction xs with
  | nil => intro _; simp [sumX2]
  | cons x txs ih =>
    intro h
    have hx : x = c := h x (List.mem_cons_self _ _)
    have ht := ih (fun y hy => h y (List.mem_cons_of_mem _ hy))
    have hstep : sumX2 (x :: txs) = (x : ℚ) * (x : ℚ) + sumX2 txs := by
      unfold sumX2
      rw [List.map_cons, List.sum_cons]
    rw [hstep, ht, hx, List.length_cons]
    push_cast
    ring

lemma olsDenom_const {c : ℕ} (xs : List ℕ) (h : ∀ x ∈ xs, x = c) :
    olsDenom xs = 0 := by
  unfold olsDenom
  rw [sumX_const xs h, sumX2_const xs h]
  ring

end LI

namespace LI

/-! ### Slice lemmas -/

lemma slice_length {keys : List ℕ} {s e : ℕ} (he : e ≤ keys.length) :
    (slice keys s e).length = e - s := by
  simp only [slice, List.length_take, List.length_drop]
  omega

lemma slice_getD {keys : List ℕ} {s e j : ℕ} (hj : j < e - s) :
    (slice keys s e).getD j 0 = keys.getD (s + j) 0 := by
  simp only [slice, List.getD_eq_getElem?_getD]
  rw [List.getElem?_take_of_lt hj, List.getElem?_drop]

lemma slice_sorted {keys : List ℕ} (hs : keys.Sorted (· ≤ ·)) (s e : ℕ) :
    (slice keys s e).Sorted (· ≤ ·) :=
  List.Pairwise.sublist
    (((keys.drop s).take_sublist _).trans (keys.drop_sublist s)) hs

lemma slice_append {keys : List ℕ} {s m e : ℕ} (h1 : s ≤ m) (h2 : m ≤ e) :
    slice keys s m ++ slice keys m e = slice keys s e := by
  simp only [slice]
  rw [show e - s = (m - s) + (e - m) by omega, List.take_add]
  congr 2
  rw [List.drop_drop]
  congr 1
  omega

lemma slice_cons {keys : List ℕ} {s e : ℕ} (hse : s < e)
    (he : e ≤ keys.length) : slice keys s e = keys.getD s 0 :: slice keys (s + 1) e := by
  have hsl : s < keys.length := lt_of_lt_of_le hse he
  simp only [slice]
  rw [List.drop_eq_getElem_cons hsl,
    show e - s = (e - (s + 1)) + 1 by omega, List.take_succ_cons]
  congr 1
  rw [List.getD_eq_getElem?_getD, List.getElem?_eq_getElem hsl]
  rfl

lemma slice_mem_getD {keys : List ℕ} {s e : ℕ} {k : ℕ}
    (he : e ≤ keys.length) (hk : k ∈ slice keys s e) :
    ∃ j, s ≤ j ∧ j < e ∧ keys.getD j 0 = k := by
  obtain ⟨i, hi, hik⟩ := List.getElem_of_mem hk
  have hlen : (slice keys s e).length = e - s := slice_length he
  refine ⟨s + i, by omega, by omega, ?_⟩
  rw [← slice_getD (by omega : i < e - s)]
  rw [List.getD_eq_getElem?_getD, List.getElem?_eq_getElem hi, hik]
  rfl

/-! ### The leaf level covers the whole array -/

lemma coversB_leaf_intro {keys : List ℕ} {ord s e : ℕ} (h1 : s < e)
    (h2 : e ≤ keys.length) :
    CoversB keys ord
      (.leaf (keys.getD s 0) (slice keys s e) (List.range' s (e - s))) s e := by
  simp [CoversB, h1, h2]

lemma coversChain_nil_iff {keys : List ℕ} {ord : ℕ} {ss : List ℕ} {e : ℕ} :
    CoversChain keys ord [] ss e ↔ ss = [] := by
  simp [CoversChain]

lemma coversChain_cons_iff {keys : List ℕ} {ord : ℕ} {c : BPNode}
    {cs : List BPNode} {ss : List ℕ} {e : ℕ} :
    CoversChain keys ord (c :: cs) ss e ↔
      ∃ s ss2, ss = s :: ss2 ∧ CoversB keys ord c s (ss2.headD e) ∧
        CoversChain keys ord cs ss2 e := by
  simp [CoversChain]

lemma leafLevel_stop {keys : List ℕ} {ord : ℕ} :
    ∀ fuel s, keys.length ≤ s → leafLevel keys ord fuel s = [] := by
  intro fuel s h
  cases fuel with
  | zero => rfl
  | succ a =>
    simp only [leafLevel]
    rw [if_neg (by omega)]

lemma leafLevel_chain {keys : List ℕ} {ord : ℕ} (hord : 1 ≤ ord) :
    ∀ fuel s, keys.length ≤ s + fuel → s < keys.length →
      ∃ ss, CoversChain keys ord (leafLevel keys ord fuel s) (s :: ss)
        keys.length := by
  intro fuel
  induction fuel with
  | zero => intro s h1 h2; omega
  | succ a ih =>
    intro s h1 h2
    simp only [leafLevel, h2, if_true]
    have hse : s < min (s + ord) keys.length := by omega
    have hle : min (s + ord) keys.length ≤ keys.length := min_le_right _ _
    by_cases hcont : min (s + ord) keys.length < keys.length
    · obtain ⟨ss2, hchain⟩ := ih (min (s + ord) keys.length) (by omega) hcont
      refine ⟨min (s + ord) keys.length :: ss2, ?_⟩
      rw [coversChain_cons_iff]
      exact ⟨s, _, rfl, coversB_leaf_intro hse hle, hchain⟩
    · have heq : min (s + ord) keys.length = keys.length := by omega
      refine ⟨[], ?_⟩
      rw [leafLevel_stop a _ (by omega)]
      rw [coversChain_cons_iff]
      refine ⟨s, [], rfl, ?_, coversChain_nil_iff.mpr rfl⟩
      simpa [heq] using coversB_leaf_intro hse hle

/-! ### Chain access lemmas -/

lemma coversChain_lengths {keys : List ℕ} {ord : ℕ} :
    ∀ (cs : List BPNode) (ss : List ℕ) (e : ℕ),
      CoversChain keys ord cs ss e → ss.length = cs.length := by
  intro cs
  induction cs with
  | nil =>
    intro ss e h
    rw [coversChain_nil_iff.mp h]
    simp
  | cons c cs2 ih =>
    intro ss e h
    obtain ⟨s, ss2, rfl, _, hrest⟩ := coversChain_cons_iff.mp h
    simp [ih ss2 e hrest]

lemma coversChain_getD {keys : List ℕ} {ord : ℕ} :
    ∀ (cs : List BPNode) (ss : List ℕ) (e i : ℕ),
      CoversChain keys ord cs ss e → i < cs.length →
      CoversB keys ord (cs.getD i default) (ss.getD i 0)
        (if i + 1 < ss.length then ss.getD (i + 1) 0 else e) := by
  intro cs
  induction cs with
  | nil => intro ss e i _ hi; simp at hi
  | cons c cs2 ih =>
    intro ss e i h hi
    obtain ⟨s, ss2, rfl, hB, hrest⟩ := coversChain_cons_iff.mp h
    cases i with
    | zero =>
      cases ss2 with
      | nil =>
        simpa using hB
      | cons s2 sst =>
        simpa using hB
    | succ j =>
      have := ih ss2 e j hrest (by simpa using hi)
      simpa using this

lemma bptSearchChild_getD :
    ∀ (cs : List BPNode) (i : ℕ), i < cs.length → ∀ q,
      bptSearchChild cs i q = bptSearchNode (cs.getD i default) q := by
  intro cs
  induction cs with
  | nil => intro i hi; simp at hi
  | cons c cs2 ih =>
    intro i hi q
    cases i with
    | zero => rfl
    | succ j =>
      have := ih j (by simpa using hi) q
      simpa [bptSearchChild] using this

end LI

namespace LI

/-! ### Structural consequences of CoversB -/

lemma coversB_min {keys : List ℕ} {ord : ℕ} {t : BPNode} {s e : ℕ}
    (h : CoversB keys ord t s e) : nodeMin t = keys.getD s 0 := by
  cases t with
  | leaf mk ks ps =>
    simp only [CoversB] at h
    simpa [nodeMin] using h.2.2.1
  | internal mk ks cs =>
    simp only [CoversB] at h
    simpa [nodeMin] using h.1

mutual

theorem coversB_lt {keys : List ℕ} {ord : ℕ} :
    ∀ (t : BPNode) (s e : ℕ), CoversB keys ord t s e → s < e
  | .leaf mk ks ps, s, e, h => by
    simp only [CoversB] at h
    exact h.1
  | .internal mk ks cs, s, e, h => by
    simp only [CoversB] at h
    obtain ⟨hmk, hlen, ss, hks, hchain⟩ := h
    cases cs with
    | nil =>
      rw [coversChain_nil_iff] at hchain
      cases hchain
    | cons c cs2 =>
      obtain ⟨s2, ss2, heq, hB, hrest⟩ := coversChain_cons_iff.mp hchain
      obtain ⟨rfl, rfl⟩ := List.cons.inj heq
      have h1 := coversB_lt c s (ss.headD e) hB
      have h2 := coversChain_headD_le cs2 ss e hrest
      omega
termination_by structural t => t

theorem coversChain_headD_le {keys : List ℕ} {ord : ℕ} :
    ∀ (cs : List BPNode) (ss : List ℕ) (e : ℕ),
      CoversChain keys ord cs ss e → ss.headD e ≤ e
  | [], ss, e, h => by
    rw [coversChain_nil_iff.mp h]
    exact le_rfl
  | c :: cs2, ss, e, h => by
    obtain ⟨s, ss2, rfl, hB, hrest⟩ := coversChain_cons_iff.mp h
    have h1 := coversB_lt c s (ss2.headD e) hB
    have h2 := coversChain_headD_le cs2 ss2 e hrest
    simp only [List.headD_cons]
    omega
termination_by structural l => l

end

mutual

theorem coversB_end_le {keys : List ℕ} {ord : ℕ} :
    ∀ (t : BPNode) (s e : ℕ), CoversB keys ord t s e → e ≤ keys.length
  | .leaf mk ks ps, s, e, h => by
    simp only [CoversB] at h
    exact h.2.1
  | .internal mk ks cs, s, e, h => by
    simp only [CoversB] at h
    obtain ⟨hmk, hlen, ss, hks, hchain⟩ := h
    cases cs with
    | nil =>
      rw [coversChain_nil_iff] at hchain
      cases hchain
    | cons c cs2 =>
      exact coversChain_end_le (c :: cs2) (s :: ss) e hchain (by simp)
termination_by structural t => t

theorem coversChain_end_le {keys : List ℕ} {ord : ℕ} :
    ∀ (cs : List BPNode) (ss : List ℕ) (e : ℕ),
      CoversChain keys ord cs ss e → cs ≠ [] → e ≤ keys.length
  | [], ss, e, _, hne => absurd rfl hne
  | c :: cs2, ss, e, h, _ => by
    obtain ⟨s, ss2, rfl, hB, hrest⟩ := coversChain_cons_iff.mp h
    cases cs2 with
    | nil =>
      rw [coversChain_nil_iff.mp hrest] at hB
      exact coversB_end_le c s e (by simpa using hB)
    | cons c2 cs3 =>
      exact coversChain_end_le (c2 :: cs3) ss2 e hrest (by simp)
termination_by structural l => l

end

mutual

theorem coversB_subtree {keys : List ℕ} {ord : ℕ} :
    ∀ (t : BPNode) (s e : ℕ), CoversB keys ord t s e →
      subtreeKeys t = slice keys s e
  | .leaf mk ks ps, s, e, h => by
    simp only [CoversB] at h
    simpa [subtreeKeys] using h.2.2.2.1
  | .internal mk ks cs, s, e, h => by
    simp only [CoversB] at h
    obtain ⟨hmk, hlen, ss, hks, hchain⟩ := h
    have := coversChain_subtree cs (s :: ss) e hchain
    simpa [subtreeKeys] using this
termination_by structural t => t

theorem coversChain_subtree {keys : List ℕ} {ord : ℕ} :
    ∀ (cs : List BPNode) (ss : List ℕ) (e : ℕ),
      CoversChain keys ord cs ss e →
      subtreeKeysList cs = slice keys (ss.headD e) e
  | [], ss, e, h => by
    rw [coversChain_nil_iff.mp h]
    simp [subtreeKeysList, slice]
  | c :: cs2, ss, e, h => by
    obtain ⟨s, ss2, rfl, hB, hrest⟩ := coversChain_cons_iff.mp h
    have h1 := coversB_subtree c s (ss2.headD e) hB
    have h2 := coversChain_subtree cs2 ss2 e hrest
    have hlt := coversB_lt c s (ss2.headD e) hB
    have hle := coversChain_headD_le cs2 ss2 e hrest
    simp only [subtreeKeysList, List.headD_cons, h1, h2]
    exact slice_append (le_of_lt hlt) hle
termination_by structural l => l

end

mutual

theorem coversB_allNodes {keys : List ℕ} {ord : ℕ} :
    ∀ (t : BPNode) (s e : ℕ), CoversB keys ord t s e →
      ∀ u ∈ allNodes t, ∃ s2 e2, CoversB keys ord u s2 e2
  | .leaf mk ks ps, s, e, h => by
    intro u hu
    simp only [allNodes, List.mem_singleton] at hu
    subst hu
    exact ⟨s, e, h⟩
  | .internal mk ks cs, s, e, h => by
    intro u hu
    simp only [allNodes, List.mem_cons] at hu
    rcases hu with rfl | hu
    · exact ⟨s, e, h⟩
    · simp only [CoversB] at h
      obtain ⟨hmk, hlen, ss, hks, hchain⟩ := h
      exact coversChain_allNodes cs (s :: ss) e hchain u hu
termination_by structural t => t

theorem coversChain_allNodes {keys : List ℕ} {ord : ℕ} :
    ∀ (cs : List BPNode) (ss : List ℕ) (e : ℕ),
      CoversChain keys ord cs ss e →
      ∀ u ∈ allNodesList cs, ∃ s2 e2, CoversB keys ord u s2 e2
  | [], ss, e, _ => by
    intro u hu
    simp [allNodesList] at hu
  | c :: cs2, ss, e, h => by
    obtain ⟨s, ss2, rfl, hB, hrest⟩ := coversChain_cons_iff.mp h
    intro u hu
    simp only [allNodesList, List.mem_append] at hu
    rcases hu with hu | hu
    · exact coversB_allNodes c s (ss2.headD e) hB u hu
    · exact coversChain_allNodes cs2 ss2 e hrest u hu
termination_by structural l => l

end

end LI

/-! ## Claim theorems -/

namespace LI

/-- Claim C6: RMI::train called with an empty key array reports an error
(throws) without producing any trained state: in this functional embedding
the call returns Except.error and no new index state, so the caller's root
model and leaf collection are untouched (whatever state st held before the
call remains the caller's state). -/
theorem claim_C6_train_empty_fails (st : RMIState) :
    rmiTrain st [] = .error "RMI::train: empty keys" := rfl

/-- Claim C7: bulk_load on an empty key array produces an empty tree (no
root), and every subsequent search on that tree returns not-found for
every query key. -/
theorem claim_C7_bulk_load_empty (ord : ℕ) :
    bulkLoad ord [] = none ∧
      ∀ key, bptSearch (bulkLoad ord []) key = none := by
  constructor
  · rfl
  · intro key; rfl

/-- Claim C5 (code bug witness): searching an RMI on which train was never
run dereferences leaves_[leaf_id] with leaves_ empty — an out-of-bounds
vector access (undefined behavior), embedded here as Except.error — for
every non-empty key array and every query, instead of failing fast or
deterministically returning found = false as the spec requires. -/
theorem claim_C5_untrained_search_oob (L : ℕ) (keys : List ℕ) (key : ℕ)
    (hL : 0 < L) (hne : keys ≠ []) :
    rmiSearch (rmiInit L) keys key =
      .error "RMI::search: leaf access out of bounds" := by
  have hn : keys.length ≠ 0 := fun h => hne (List.length_eq_zero.mp h)
  unfold rmiSearch rmiInit routeLeaf bucketId clamp_pos
  simp only [hn, if_false]
  have h0 : ¬ ((0 : ℚ) * (key : ℚ) + 0 < 0) := by norm_num
  have h1 : ¬ ((keys.length : ℚ) ≤ (0 : ℚ) * (key : ℚ) + 0) := by
    push_neg
    have : (0 : ℚ) < (keys.length : ℚ) := by
      exact_mod_cast Nat.pos_of_ne_zero hn
    simpa using this
  simp only [h0, if_false, h1, if_false]
  norm_num

/-- Witness for claim C5: the failing input — an untrained RMI with the
default 64 leaves, key array [5], query 5. -/
theorem claim_C5_witness :
    rmiSearch (rmiInit 64) [5] 5 =
      .error "RMI::search: leaf access out of bounds" :=
  claim_C5_untrained_search_oob 64 [5] 5 (by decide) (by decide)

/-- Claim C9: on keys [10,20,30,40,50,60,70,80] with order 4, bulk_load
builds exactly one root internal node with single split key 50 over two
leaves [10,20,30,40] (positions 0-3) and [50,60,70,80] (positions 4-7);
search(60) returns (true, 5) and search(45) returns (false, _). -/
theorem claim_C9_scenario :
    bulkLoad 4 [10, 20, 30, 40, 50, 60, 70, 80] =
      some (.internal 10 [50]
        [.leaf 10 [10, 20, 30, 40] [0, 1, 2, 3],
         .leaf 50 [50, 60, 70, 80] [4, 5, 6, 7]]) ∧
    bptSearch (bulkLoad 4 [10, 20, 30, 40, 50, 60, 70, 80]) 60 = some 5 ∧
    bptSearch (bulkLoad 4 [10, 20, 30, 40, 50, 60, 70, 80]) 45 = none := by
  refine ⟨?_, ?_, ?_⟩ <;> rfl

/-- Claim C8: fit_linear returns (0, 0) on zero points; when the OLS
denominator n·Σx² − (Σx)² is below the 1e-12 tolerance in magnitude it
returns slope 0 and intercept mean(y) instead of dividing; and the
denominator is exactly zero (hence degenerate) whenever all x values are
identical. -/
theorem claim_C8_fit_linear_degenerate :
    (∀ ys, fit_linear [] ys = (0, 0)) ∧
    (∀ xs ys, xs ≠ [] → |olsDenom xs| < tol →
      fit_linear xs ys = (0, sumY (ys.take xs.length) / (xs.length : ℚ))) ∧
    (∀ (c : ℕ) (xs : List ℕ), (∀ x ∈ xs, x = c) → olsDenom xs = 0) := by
  refine ⟨fun ys => rfl, ?_, ?_⟩
  · intro xs ys hne hdeg
    have hn : xs.length ≠ 0 := fun h => hne (List.length_eq_zero.mp h)
    unfold fit_linear
    simp only [hn, if_false]
    rw [if_pos (by exact hdeg)]
  · intro c xs h
    exact olsDenom_const xs h

end LI

namespace LI

set_option allowUnsafeReducibility true in
attribute [local semireducible] Rat.add Rat.mul Rat.inv Rat.sub in
/-- Witness for claim C8: two identical x values 7, y values 1 and 3 — the
denominator is degenerate and the fit is the flat predictor y = 2. -/
theorem claim_C8_witness :
    fit_linear [7, 7] [1, 3] = (0, sumY ([1, 3].take 2) / (2 : ℚ)) ∧
      fit_linear [7, 7] [1, 3] = (0, 2) :=
  ⟨(claim_C8_fit_linear_degenerate.2.1 [7, 7] [1, 3] (by decide) (by decide)),
   by decide⟩

end LI

namespace LI

/-! ### Bulk load builds a covering tree -/

lemma firsts_cons (ord : ℕ) (x : ℕ) (xs : List ℕ) :
    firsts ord (x :: xs) = x :: firsts ord (xs.drop (ord - 1)) := by
  unfold firsts
  rw [chunks_cons]
  simp

lemma firsts_headD (ord : ℕ) (l : List ℕ) (d : ℕ) :
    (firsts ord l).headD d = l.headD d := by
  cases l with
  | nil => rfl
  | cons x xs =>
    rw [firsts_cons]
    simp

lemma headD_append {ss1 ss2 : List ℕ} (e : ℕ) :
    (ss1 ++ ss2).headD e = ss1.headD (ss2.headD e) := by
  cases ss1 <;> simp

lemma chain_append_split {keys : List ℕ} {ord : ℕ} :
    ∀ (l1 : List BPNode) (ss1 : List ℕ) (l2 : List BPNode) (ss2 : List ℕ)
      (e : ℕ), l1.length = ss1.length →
      CoversChain keys ord (l1 ++ l2) (ss1 ++ ss2) e →
      CoversChain keys ord l1 ss1 (ss2.headD e) ∧
        CoversChain keys ord l2 ss2 e := by
  intro l1
  induction l1 with
  | nil =>
    intro ss1 l2 ss2 e hlen h
    have : ss1 = [] := List.length_eq_zero.mp (by simp at hlen; omega)
    subst this
    exact ⟨coversChain_nil_iff.mpr rfl, by simpa using h⟩
  | cons c l1t ih =>
    intro ss1 l2 ss2 e hlen h
    cases ss1 with
    | nil => simp at hlen
    | cons s ss1t =>
      simp only [List.cons_append] at h
      obtain ⟨s2, sst, heq, hB, hrest⟩ := coversChain_cons_iff.mp h
      obtain ⟨rfl, rfl⟩ := List.cons.inj heq
      obtain ⟨ih1, ih2⟩ := ih ss1t l2 ss2 e (by simpa using hlen) hrest
      constructor
      · rw [coversChain_cons_iff]
        refine ⟨s, ss1t, rfl, ?_, ih1⟩
        rwa [headD_append] at hB
      · exact ih2

lemma chain_minKeys {keys : List ℕ} {ord : ℕ} :
    ∀ (cs : List BPNode) (ss : List ℕ) (e : ℕ),
      CoversChain keys ord cs ss e →
      cs.map nodeMin = ss.map (fun t => keys.getD t 0) := by
  intro cs
  induction cs with
  | nil =>
    intro ss e h
    rw [coversChain_nil_iff.mp h]
    rfl
  | cons c cs2 ih =>
    intro ss e h
    obtain ⟨s, ss2, rfl, hB, hrest⟩ := coversChain_cons_iff.mp h
    simp only [List.map_cons]
    rw [coversB_min hB, ih ss2 e hrest]

lemma coversB_mkInternal {keys : List ℕ} {ord : ℕ} {g : List BPNode}
    {sg : ℕ} {ssg : List ℕ} {m : ℕ} (hlen : g.length ≤ ord)
    (hchain : CoversChain keys ord g (sg :: ssg) m) :
    CoversB keys ord (mkInternalNode g) sg m := by
  cases g with
  | nil =>
    rw [coversChain_nil_iff] at hchain
    cases hchain
  | cons c gt =>
    obtain ⟨s2, sst, heq, hB, hrest⟩ := coversChain_cons_iff.mp hchain
    obtain ⟨rfl, rfl⟩ := List.cons.inj heq
    have hmap := chain_minKeys (c :: gt) (sg :: ssg) m hchain
    unfold mkInternalNode
    simp only [CoversB]
    refine ⟨?_, hlen, ssg, ?_, hchain⟩
    · rw [hmap]
      simp
    · have : (c :: gt).drop 1 = gt := rfl
      rw [this]
      have hmap2 : gt.map nodeMin = ssg.map (fun t => keys.getD t 0) :=
        chain_minKeys gt ssg m hrest
      exact hmap2

lemma level_step {keys : List ℕ} {ord : ℕ} (hord : 1 ≤ ord) :
    ∀ (N : ℕ) (lvl : List BPNode) (ss : List ℕ) (e : ℕ), lvl.length ≤ N →
      CoversChain keys ord lvl ss e →
      CoversChain keys ord ((chunks ord lvl).map mkInternalNode)
        (firsts ord ss) e := by
  intro N
  induction N with
  | zero =>
    intro lvl ss e hN h
    have : lvl = [] := List.length_eq_zero.mp (by omega)
    subst this
    rw [coversChain_nil_iff.mp h]
    rw [chunks_nil]
    exact coversChain_nil_iff.mpr rfl
  | succ N2 ih =>
    intro lvl ss e hN h
    cases lvl with
    | nil =>
      rw [coversChain_nil_iff.mp h]
      rw [chunks_nil]
      exact coversChain_nil_iff.mpr rfl
    | cons c rest =>
      have hlens : ss.length = (c :: rest).length := coversChain_lengths _ _ _ h
      cases ss with
      | nil => simp at hlens
      | cons s sst =>
        have hrl : rest.length = sst.length := by simpa using hlens.symm
        -- split the level at the first group boundary
        have hsplit : (c :: rest) = (c :: rest.take (ord - 1)) ++ rest.drop (ord - 1) := by
          simp [List.take_append_drop]
        have hsplit2 : (s :: sst) = (s :: sst.take (ord - 1)) ++ sst.drop (ord - 1) := by
          simp [List.take_append_drop]
        have hglen : (c :: rest.take (ord - 1)).length = (s :: sst.take (ord - 1)).length := by
          simp [List.length_take, hrl]
        have h2 : CoversChain keys ord
            ((c :: rest.take (ord - 1)) ++ rest.drop (ord - 1))
            ((s :: sst.take (ord - 1)) ++ sst.drop (ord - 1)) e := by
          rw [← hsplit, ← hsplit2]
          exact h
        obtain ⟨hg, hrest2⟩ := chain_append_split _ _ _ _ _ hglen h2
        have hparent : CoversB keys ord
            (mkInternalNode (c :: rest.take (ord - 1))) s
            ((sst.drop (ord - 1)).headD e) :=
          coversB_mkInternal (by simp [List.length_take]; omega) hg
        have hrec : CoversChain keys ord
            ((chunks ord (rest.drop (ord - 1))).map mkInternalNode)
            (firsts ord (sst.drop (ord - 1))) e := by
          refine ih (rest.drop (ord - 1)) (sst.drop (ord - 1)) e ?_ hrest2
          simp only [List.length_drop]
          simp only [List.length_cons] at hN
          omega
        rw [chunks_cons, List.map_cons, firsts_cons]
        rw [coversChain_cons_iff]
        refine ⟨s, _, rfl, ?_, hrec⟩
        rwa [firsts_headD]

lemma buildUp_covers {keys : List ℕ} {ord : ℕ} (hord : 1 ≤ ord) :
    ∀ (fuel : ℕ) (lvl : List BPNode) (ss : List ℕ) (t : BPNode),
      CoversChain keys ord lvl ss keys.length →
      ss.headD keys.length = 0 →
      buildUp ord fuel lvl = some t →
      CoversB keys ord t 0 keys.length := by
  intro fuel
  induction fuel with
  | zero =>
    intro lvl ss t hchain hhead hb
    cases lvl with
    | nil => simp [buildUp] at hb
    | cons t1 ts =>
      cases ts with
      | nil =>
        simp only [buildUp, Option.some.injEq] at hb
        subst hb
        obtain ⟨s, ss2, rfl, hB, hrest⟩ := coversChain_cons_iff.mp hchain
        rw [coversChain_nil_iff.mp hrest] at hB
        simp only [List.headD_cons] at hhead
        subst hhead
        simpa using hB
      | cons t2 ts2 => simp [buildUp] at hb
  | succ f ih =>
    intro lvl ss t hchain hhead hb
    cases lvl with
    | nil => simp [buildUp] at hb
    | cons t1 ts =>
      cases ts with
      | nil =>
        simp only [buildUp, Option.some.injEq] at hb
        subst hb
        obtain ⟨s, ss2, rfl, hB, hrest⟩ := coversChain_cons_iff.mp hchain
        rw [coversChain_nil_iff.mp hrest] at hB
        simp only [List.headD_cons] at hhead
        subst hhead
        simpa using hB
      | cons t2 ts2 =>
        simp only [buildUp] at hb
        refine ih _ (firsts ord ss) t ?_ ?_ hb
        · exact level_step hord (t1 :: t2 :: ts2).length _ _ _ le_rfl hchain
        · rw [firsts_headD]
          exact hhead

lemma bulkLoad_covers {keys : List ℕ} {ord : ℕ} (hord : 2 ≤ ord)
    (hne : keys ≠ []) :
    ∃ t, bulkLoad ord keys = some t ∧ CoversB keys ord t 0 keys.length := by
  have hn : keys.length ≠ 0 := fun h => hne (List.length_eq_zero.mp h)
  have hpos : 0 < keys.length := Nat.pos_of_ne_zero hn
  obtain ⟨ss, hchain⟩ :=
    @leafLevel_chain keys ord (by omega) keys.length 0 (by omega) hpos
  have hlv : (leafLevel keys ord keys.length 0) ≠ [] := by
    intro hcon
    have := coversChain_lengths _ _ _ hchain
    rw [hcon] at this
    simp at this
  obtain ⟨t, hb⟩ := buildUp_some hord (leafLevel keys ord keys.length 0).length
    (leafLevel keys ord keys.length 0) hlv (by omega)
  refine ⟨t, ?_, ?_⟩
  · unfold bulkLoad
    rw [if_neg hn]
    exact hb
  · exact buildUp_covers (by omega) _ _ (0 :: ss) t hchain (by simp) hb

end LI

namespace LI

/-! ### Ordering of chain start positions -/

lemma getD_map_lt {f : ℕ → ℕ} {l : List ℕ} {i : ℕ} (h : i < l.length)
    (d d2 : ℕ) : (l.map f).getD i d = f (l.getD i d2) := by
  rw [List.getD_eq_getElem?_getD, List.getD_eq_getElem?_getD,
    List.getElem?_eq_getElem (by simpa using h), List.getElem?_eq_getElem h]
  simp

lemma getD_range' {s n i : ℕ} (h : i < n) :
    (List.range' s n).getD i 0 = s + i := by
  rw [List.getD_eq_getElem?_getD,
    List.getElem?_eq_getElem (by simpa using h)]
  simp

lemma chain_getD_lt_next {keys : List ℕ} {ord : ℕ} {cs : List BPNode}
    {ss : List ℕ} {e : ℕ} (hchain : CoversChain keys ord cs ss e) {i : ℕ}
    (hi : i + 1 < ss.length) : ss.getD i 0 < ss.getD (i + 1) 0 := by
  have hlen := coversChain_lengths _ _ _ hchain
  have h := coversChain_getD cs ss e i hchain (by omega)
  rw [if_pos hi] at h
  exact coversB_lt _ _ _ h

lemma chain_getD_lt_e {keys : List ℕ} {ord : ℕ} {cs : List BPNode}
    {ss : List ℕ} {e : ℕ} (hchain : CoversChain keys ord cs ss e) :
    ∀ d i, ss.length - i = d → i < ss.length → ss.getD i 0 < e := by
  intro d
  induction d with
  | zero => intro i h1 h2; omega
  | succ d2 ih =>
    intro i h1 h2
    have hlen := coversChain_lengths _ _ _ hchain
    by_cases hcase : i + 1 < ss.length
    · have h1' := chain_getD_lt_next hchain hcase
      have h2' := ih (i + 1) (by omega) hcase
      omega
    · have h := coversChain_getD cs ss e i hchain (by omega)
      rw [if_neg hcase] at h
      exact coversB_lt _ _ _ h

lemma chain_getD_mono {keys : List ℕ} {ord : ℕ} {cs : List BPNode}
    {ss : List ℕ} {e : ℕ} (hchain : CoversChain keys ord cs ss e) :
    ∀ d i j, j - i = d → i ≤ j → j < ss.length →
      ss.getD i 0 ≤ ss.getD j 0 := by
  intro d
  induction d with
  | zero =>
    intro i j h1 h2 h3
    have : i = j := by omega
    subst this
    exact le_rfl
  | succ d2 ih =>
    intro i j h1 h2 h3
    have hstep := chain_getD_lt_next hchain (show i + 1 < ss.length by omega)
    have := ih (i + 1) j (by omega) (by omega) h3
    omega

end LI

namespace LI

lemma getD_eq_getElem_nat {l : List ℕ} {i : ℕ} (h : i < l.length) :
    l.getD i 0 = l[i] := by
  rw [List.getD_eq_getElem?_getD, List.getElem?_eq_getElem h]
  rfl

mutual

/-- If a subtree covers [s, e) and the query value occurs at a position in
[s, e), BPTree::search on that subtree finds some matching position. -/
theorem coversB_found {keys : List ℕ} {ord : ℕ} (hs : keys.Sorted (· ≤ ·)) :
    ∀ (t : BPNode) (s e : ℕ), CoversB keys ord t s e →
      ∀ q r, s ≤ r → r < e → keys.getD r 0 = q →
      ∃ p, bptSearchNode t q = some p ∧ p < keys.length ∧ keys.getD p 0 = q
  | .leaf mk ks ps, s, e, h, q, r, hr1, hr2, hq => by
    simp only [CoversB] at h
    obtain ⟨hse, hel, hmk, hks, hps⟩ := h
    subst hks
    subst hps
    have hsl := slice_sorted hs s e
    have hlen : (slice keys s e).length = e - s := slice_length hel
    have hoff : (slice keys s e).getD (r - s) 0 = q := by
      rw [slice_getD (by omega), show s + (r - s) = r by omega]
      exact hq
    obtain ⟨m, hm⟩ := leafSearch_found hsl (Nat.zero_le (r - s))
      (by omega) le_rfl hoff
    obtain ⟨hmq, hm0, hmlt⟩ := leafSearch_sound hm
    have hmlt2 : m < e - s := by omega
    refine ⟨s + m, ?_, by omega, ?_⟩
    · simp only [bptSearchNode, hm]
      show some ((List.range' s (e - s)).getD m 0) = some (s + m)
      rw [getD_range' hmlt2]
    · rw [← hmq, slice_getD hmlt2]
  | .internal mk ks cs, s, e, h, q, r, hr1, hr2, hq => by
    simp only [CoversB] at h
    obtain ⟨hmk, hlenord, ss, hks, hchain⟩ := h
    subst hks
    have hlens : (s :: ss).length = cs.length := coversChain_lengths _ _ _ hchain
    have hcs_ne : cs ≠ [] := by
      intro hcon
      rw [hcon] at hlens
      simp at hlens
    have hele : e ≤ keys.length := coversChain_end_le cs (s :: ss) e hchain hcs_ne
    have hsslen : ss.length + 1 = cs.length := by simpa using hlens
    -- the split keys are sorted
    have hks_sorted : (ss.map (fun t => keys.getD t 0)).Sorted (· ≤ ·) := by
      apply List.pairwise_iff_getElem.mpr
      intro i j hi hj hij
      simp only [List.length_map] at hi hj
      simp only [List.getElem_map]
      rw [← getD_eq_getElem_nat hi, ← getD_eq_getElem_nat hj]
      apply sorted_getD_le hs
      · have := chain_getD_mono hchain (j + 1 - (i + 1)) (i + 1) (j + 1) rfl
          (by omega) (by simp; omega)
        simpa using this
      · have := chain_getD_lt_e hchain ((s :: ss).length - (j + 1)) (j + 1)
          rfl (by simp; omega)
        simp only [List.getD_cons_succ] at this
        omega
    obtain ⟨hub1, hub2, hub3, hub4⟩ :=
      upperBound_spec hks_sorted q (Nat.zero_le _) le_rfl
    set ub := upperBound (ss.map (fun t => keys.getD t 0)) q 0
      (ss.map (fun t => keys.getD t 0)).length with hubdef
    have hublen : ub ≤ ss.length := by simpa using hub2
    have hciq : (if cs.length ≤ ub then cs.length - 1 else ub) = ub := by
      rw [if_neg]
      omega
    -- facts from the upper-bound search
    have hF1 : ∀ t, t < ub → keys.getD (ss.getD t 0) 0 ≤ q := by
      intro t ht
      have := hub3 t (Nat.zero_le t) ht
      rwa [getD_map_lt (by omega) 0 0] at this
    have hF2 : ub < ss.length → q < keys.getD (ss.getD ub 0) 0 := by
      intro hu
      have := hub4 ub le_rfl (by simpa using hu)
      rwa [getD_map_lt hu 0 0] at this
    -- the end position of child ub
    have hendlt : (s :: ss).getD ub 0 <
        (if ub + 1 < (s :: ss).length then (s :: ss).getD (ub + 1) 0 else e) := by
      by_cases hcase : ub + 1 < (s :: ss).length
      · rw [if_pos hcase]
        exact chain_getD_lt_next hchain hcase
      · rw [if_neg hcase]
        exact chain_getD_lt_e hchain ((s :: ss).length - ub) ub rfl (by simp; omega)
    by_cases hlow : r < (s :: ss).getD ub 0
    · -- query key also occurs exactly at the start of child ub
      have hub_pos : 0 < ub := by
        by_contra h0
        have : ub = 0 := by omega
        rw [this] at hlow
        simp only [List.getD_cons_zero] at hlow
        omega
      have hstart_eq : (s :: ss).getD ub 0 = ss.getD (ub - 1) 0 := by
        obtain ⟨k, hk⟩ : ∃ k, ub = k + 1 := ⟨ub - 1, by omega⟩
        rw [hk]
        simp
      have hstart_lt_len : (s :: ss).getD ub 0 < keys.length := by
        have := chain_getD_lt_e hchain ((s :: ss).length - ub) ub rfl (by simp; omega)
        omega
      have hle_q : keys.getD ((s :: ss).getD ub 0) 0 ≤ q := by
        rw [hstart_eq]
        exact hF1 (ub - 1) (by omega)
      have hq_le : q ≤ keys.getD ((s :: ss).getD ub 0) 0 := by
        rw [← hq]
        exact sorted_getD_le hs (le_of_lt hlow) hstart_lt_len
      have heq2 : keys.getD ((s :: ss).getD ub 0) 0 = q := le_antisymm hle_q hq_le
      have hfound := coversChain_found hs cs (s :: ss) e hchain ub q
        ((s :: ss).getD ub 0) (by omega) le_rfl hendlt heq2
      simp only [bptSearchNode, hciq]
      exact hfound
    · push_neg at hlow
      have hrlt : r <
          (if ub + 1 < (s :: ss).length then (s :: ss).getD (ub + 1) 0 else e) := by
        by_cases hcase : ub + 1 < (s :: ss).length
        · rw [if_pos hcase]
          have hult : ub < ss.length := by simp at hcase; omega
          have hq_lt := hF2 hult
          by_contra hcon
          push_neg at hcon
          rw [List.getD_cons_succ] at hcon
          have hlen2 : ss.getD ub 0 < keys.length := by
            have := chain_getD_lt_e hchain ((s :: ss).length - (ub + 1)) (ub + 1)
              rfl (by simp; omega)
            simp only [List.getD_cons_succ] at this
            omega
          have := sorted_getD_le hs hcon (by omega : r < keys.length)
          omega
        · rw [if_neg hcase]
          exact hr2
      have hfound := coversChain_found hs cs (s :: ss) e hchain ub q r
        (by omega) hlow hrlt hq
      simp only [bptSearchNode, hciq]
      exact hfound
termination_by structural t => t

/-- Dispatching the search into child i of a covering chain finds the key
when it occurs inside child i's range. -/
theorem coversChain_found {keys : List ℕ} {ord : ℕ}
    (hs : keys.Sorted (· ≤ ·)) :
    ∀ (cs : List BPNode) (ss : List ℕ) (e : ℕ),
      CoversChain keys ord cs ss e →
      ∀ i q r, i < cs.length → ss.getD i 0 ≤ r →
        r < (if i + 1 < ss.length then ss.getD (i + 1) 0 else e) →
        keys.getD r 0 = q →
        ∃ p, bptSearchChild cs i q = some p ∧ p < keys.length ∧
          keys.getD p 0 = q
  | [], ss, e, h, i, q, r, hi, _, _, _ => by simp at hi
  | c :: cs2, ss, e, h, i, q, r, hi, hlo, hhiB, hq => by
    obtain ⟨s2, sst, rfl, hB, hrest⟩ := coversChain_cons_iff.mp h
    cases i with
    | zero =>
      have hend : (if 0 + 1 < (s2 :: sst).length then (s2 :: sst).getD 1 0 else e)
          = sst.headD e := by
        cases sst <;> simp
      rw [hend] at hhiB
      have := coversB_found hs c s2 (sst.headD e) hB q r (by simpa using hlo)
        hhiB hq
      simpa [bptSearchChild] using this
    | succ j =>
      have hshift : (if j + 1 + 1 < (s2 :: sst).length
            then (s2 :: sst).getD (j + 1 + 1) 0 else e) =
          (if j + 1 < sst.length then sst.getD (j + 1) 0 else e) := by
        by_cases hcase : j + 1 < sst.length
        · rw [if_pos (by simp; omega), if_pos hcase, List.getD_cons_succ]
        · rw [if_neg (by simp; omega), if_neg hcase]
      rw [hshift] at hhiB
      have := coversChain_found hs cs2 sst e hrest j q r (by simpa using hi)
        (by simpa using hlo) hhiB hq
      simpa [bptSearchChild] using this
termination_by structural l => l

end

end LI

namespace LI

mutual

/-- Whenever BPTree::search on a covering subtree reports a position, that
position is in bounds and holds exactly the query key. -/
theorem coversB_sound {keys : List ℕ} {ord : ℕ} :
    ∀ (t : BPNode) (s e : ℕ), CoversB keys ord t s e →
      ∀ q p, bptSearchNode t q = some p →
        p < keys.length ∧ keys.getD p 0 = q
  | .leaf mk ks ps, s, e, h, q, p, hp => by
    simp only [CoversB] at h
    obtain ⟨hse, hel, hmk, hks, hps⟩ := h
    subst hks
    subst hps
    simp only [bptSearchNode] at hp
    obtain ⟨m, hm, hpm⟩ := Option.map_eq_some'.mp hp
    obtain ⟨hmq, _, hmlt⟩ := leafSearch_sound hm
    have hlen : (slice keys s e).length = e - s := slice_length hel
    have hmlt2 : m < e - s := by omega
    rw [getD_range' hmlt2] at hpm
    subst hpm
    constructor
    · omega
    · rw [← hmq, slice_getD hmlt2]
  | .internal mk ks cs, s, e, h, q, p, hp => by
    simp only [CoversB] at h
    obtain ⟨hmk, hlenord, ss, hks, hchain⟩ := h
    simp only [bptSearchNode] at hp
    exact coversChain_sound cs (s :: ss) e hchain _ q p hp
termination_by structural t => t

/-- Chain version of coversB_sound for the child dispatch. -/
theorem coversChain_sound {keys : List ℕ} {ord : ℕ} :
    ∀ (cs : List BPNode) (ss : List ℕ) (e : ℕ),
      CoversChain keys ord cs ss e →
      ∀ i q p, bptSearchChild cs i q = some p →
        p < keys.length ∧ keys.getD p 0 = q
  | [], ss, e, _, i, q, p, hp => by simp [bptSearchChild] at hp
  | c :: cs2, ss, e, h, i, q, p, hp => by
    obtain ⟨s2, sst, rfl, hB, hrest⟩ := coversChain_cons_iff.mp h
    cases i with
    | zero =>
      exact coversB_sound c s2 (sst.headD e) hB q p (by simpa [bptSearchChild] using hp)
    | succ j =>
      exact coversChain_sound cs2 sst e hrest j q p (by simpa [bptSearchChild] using hp)
termination_by structural l => l

end

end LI

namespace LI

/-- Claim C4 (counterexample): with order 2 and keys [1,2,3,4,5] the built
tree contains a NON-root internal node with only one child (the last
group of the first internal level receives a single leaf), so the claimed
invariant "every internal node has between 2 and order children (except a
singleton root)" is false as stated. -/
theorem claim_C4_packing_counterexample :
    claimedPacking 2 (bulkLoad 2 [1, 2, 3, 4, 5]) = false := by rfl

/-- Claim C4 (amended): for every tree bulk-loaded from a non-empty sorted
array with order ≥ 2, every internal node has between 1 and order
children (the last group of a level may contain a single node), and every
node's cached min_key is a key of its subtree that is ≤ every key stored
in that subtree (i.e. it equals the true subtree minimum). -/
theorem claim_C4_amended {keys : List ℕ} {ord : ℕ}
    (hs : keys.Sorted (· ≤ ·)) (hne : keys ≠ []) (hord : 2 ≤ ord)
    {t : BPNode} (ht : bulkLoad ord keys = some t) :
    ∀ u ∈ allNodes t,
      (∀ mk2 ks2 cs2, u = .internal mk2 ks2 cs2 →
        1 ≤ cs2.length ∧ cs2.length ≤ ord) ∧
      nodeMin u ∈ subtreeKeys u ∧
      (∀ k ∈ subtreeKeys u, nodeMin u ≤ k) := by
  obtain ⟨t2, ht2, hcov⟩ := bulkLoad_covers hord hne
  rw [ht] at ht2
  obtain rfl : t = t2 := by cases ht2; rfl
  intro u hu
  obtain ⟨s2, e2, hcovu⟩ := coversB_allNodes t 0 keys.length hcov u hu
  have hlt := coversB_lt u s2 e2 hcovu
  have hle := coversB_end_le u s2 e2 hcovu
  have hmin := coversB_min hcovu
  have hsub := coversB_subtree u s2 e2 hcovu
  refine ⟨?_, ?_, ?_⟩
  · intro mk2 ks2 cs2 hu2
    subst hu2
    simp only [CoversB] at hcovu
    obtain ⟨_, hlenord, ss, _, hchain⟩ := hcovu
    have := coversChain_lengths _ _ _ hchain
    constructor
    · simp at this
      omega
    · exact hlenord
  · rw [hmin, hsub, slice_cons hlt hle]
    exact List.mem_cons_self _ _
  · intro k hk
    rw [hsub] at hk
    obtain ⟨j, hj1, hj2, hjk⟩ := slice_mem_getD hle hk
    rw [hmin, ← hjk]
    exact sorted_getD_le hs hj1 (by omega)

/-- Witness for claim C4 (amended): the order-2 tree over [1,2,3,4,5]
satisfies the amended invariant. -/
theorem claim_C4_amended_witness :
    ∃ t, bulkLoad 2 [1, 2, 3, 4, 5] = some t ∧
      ∀ u ∈ allNodes t,
        (∀ mk2 ks2 cs2, u = .internal mk2 ks2 cs2 →
          1 ≤ cs2.length ∧ cs2.length ≤ 2) ∧
        nodeMin u ∈ subtreeKeys u ∧
        (∀ k ∈ subtreeKeys u, nodeMin u ≤ k) :=
  ⟨BPNode.internal 1 [5]
      [BPNode.internal 1 [3]
        [BPNode.leaf 1 [1, 2] [0, 1], BPNode.leaf 3 [3, 4] [2, 3]],
       BPNode.internal 5 [] [BPNode.leaf 5 [5] [4]]],
   rfl,
   @claim_C4_amended [1, 2, 3, 4, 5] 2 (by decide) (by decide) (by decide)
     (BPNode.internal 1 [5]
       [BPNode.internal 1 [3]
         [BPNode.leaf 1 [1, 2] [0, 1], BPNode.leaf 3 [3, 4] [2, 3]],
        BPNode.internal 5 [] [BPNode.leaf 5 [5] [4]]]) rfl⟩

end LI

namespace LI

/-! ### RMI: clamp, routing and training structure -/

lemma clamp_pos_lt {n : ℕ} (hn : 0 < n) (p : ℚ) : clamp_pos n p < n := by
  unfold clamp_pos
  split_ifs with h1 h2
  · exact hn
  · omega
  · push_neg at h1 h2
    have hfl : (⌊p⌋ : ℤ) < (n : ℤ) := by
      have := Int.floor_le p
      have hcast : (⌊p⌋ : ℚ) < (n : ℚ) := lt_of_le_of_lt this h2
      exact_mod_cast hcast
    omega

lemma clamp_pos_mono {n : ℕ} {p q : ℚ} (h : p ≤ q) :
    clamp_pos n p ≤ clamp_pos n q := by
  unfold clamp_pos
  by_cases hp : p < 0
  · rw [if_pos hp]
    exact Nat.zero_le _
  · rw [if_neg hp]
    have hq : ¬ q < 0 := by push_neg at hp ⊢; exact le_trans hp h
    rw [if_neg hq]
    by_cases hq2 : (n : ℚ) ≤ q
    · rw [if_pos hq2]
      by_cases hp2 : (n : ℚ) ≤ p
      · rw [if_pos hp2]
      · rw [if_neg hp2]
        push_neg at hp hp2
        have hfl : (⌊p⌋ : ℤ) < (n : ℤ) := by
          have := Int.floor_le p
          have hcast : (⌊p⌋ : ℚ) < (n : ℚ) := lt_of_le_of_lt this hp2
          exact_mod_cast hcast
        omega
    · rw [if_neg hq2]
      have hp2 : ¬ (n : ℚ) ≤ p := fun hcon => hq2 (le_trans hcon h)
      rw [if_neg hp2]
      have := Int.floor_le_floor h
      omega

lemma bucketId_mono {L n : ℕ} {pos1 pos2 : ℕ} (h : pos1 ≤ pos2) :
    bucketId L n pos1 ≤ bucketId L n pos2 := by
  have hdiv : pos1 * L / n ≤ pos2 * L / n :=
    Nat.div_le_div_right (Nat.mul_le_mul_right L h)
  simp only [bucketId]
  split_ifs with h1 h2
  · exact le_rfl
  · omega
  · omega
  · exact hdiv

lemma routeLeaf_lt {root : LinearModel} {L n : ℕ} (hL : 0 < L) (key : ℕ) :
    routeLeaf root L n key < L := by
  simp only [routeLeaf, bucketId]
  split_ifs with h
  · omega
  · push_neg at h
    omega

lemma rmiTrain_ok {st : RMIState} {keys : List ℕ} (hne : keys.length ≠ 0) :
    rmiTrain st keys =
      .ok ⟨st.num_leaves, rootModel keys, trainedLeaves st.num_leaves keys⟩ := by
  unfold rmiTrain
  rw [if_neg hne]

lemma trainedLeaves_get {L : ℕ} (keys : List ℕ) {l : ℕ} (hl : l < L) :
    (trainedLeaves L keys).get? l =
      some (bucketLeaf keys (bucket (rootModel keys) L keys l)) := by
  unfold trainedLeaves
  rw [List.get?_eq_getElem?, List.getElem?_map, List.getElem?_range hl]
  rfl

lemma mem_bucket_iff {root : LinearModel} {L : ℕ} {keys : List ℕ} {l i : ℕ} :
    i ∈ bucket root L keys l ↔
      i < keys.length ∧ routeLeaf root L keys.length (keys.getD i 0) = l := by
  simp [bucket, List.mem_filter, List.mem_range]

/-- The computed window of any leaf model contains every index i whose
prediction is within max_error of i and whose true index lies in the
leaf's recorded segment. -/
lemma window_contains {leaf : LinearModel} {n i k : ℕ}
    (h1 : leaf.start_idx ≤ i) (h2 : i + 1 ≤ leaf.end_idx) (h3 : i < n)
    (hplo : clamp_pos n (leaf.a * (k : ℚ) + leaf.b) ≤ i + leaf.max_error)
    (hphi : i ≤ clamp_pos n (leaf.a * (k : ℚ) + leaf.b) + leaf.max_error) :
    (rmiWindow leaf n k).1 ≤ i ∧ i ≤ (rmiWindow leaf n k).2 := by
  have hend : leaf.end_idx ≠ 0 := by omega
  constructor <;>
  · simp only [rmiWindow, hend, if_false]
    split_ifs <;> simp only [] <;> omega

end LI

namespace LI

/-- The window a trained (non-empty-bucket) leaf computes for the key at
index i of its own bucket contains i. -/
lemma bucketLeaf_window {keys : List ℕ} {i0 : ℕ} {rest : List ℕ} {i : ℕ}
    (hmem : i ∈ i0 :: rest) (hlen : i < keys.length) :
    (rmiWindow (bucketLeaf keys (i0 :: rest)) keys.length (keys.getD i 0)).1 ≤ i ∧
      i ≤ (rmiWindow (bucketLeaf keys (i0 :: rest)) keys.length (keys.getD i 0)).2 := by
  have ha : (bucketLeaf keys (i0 :: rest)).a =
      (fit_linear ((i0 :: rest).map (fun j => keys.getD j 0)) (i0 :: rest)).1 := rfl
  have hbb : (bucketLeaf keys (i0 :: rest)).b =
      (fit_linear ((i0 :: rest).map (fun j => keys.getD j 0)) (i0 :: rest)).2 := rfl
  have hme : (bucketLeaf keys (i0 :: rest)).max_error =
      ((i0 :: rest).map (leafErr keys
        (fit_linear ((i0 :: rest).map (fun j => keys.getD j 0)) (i0 :: rest)).1
        (fit_linear ((i0 :: rest).map (fun j => keys.getD j 0)) (i0 :: rest)).2)).foldl
        max 0 := rfl
  have hst : (bucketLeaf keys (i0 :: rest)).start_idx =
      (i0 :: rest).foldl min i0 := rfl
  have hen : (bucketLeaf keys (i0 :: rest)).end_idx =
      (i0 :: rest).foldl max i0 + 1 := rfl
  have herr : leafErr keys
      (fit_linear ((i0 :: rest).map (fun j => keys.getD j 0)) (i0 :: rest)).1
      (fit_linear ((i0 :: rest).map (fun j => keys.getD j 0)) (i0 :: rest)).2 i ≤
      ((i0 :: rest).map (leafErr keys
        (fit_linear ((i0 :: rest).map (fun j => keys.getD j 0)) (i0 :: rest)).1
        (fit_linear ((i0 :: rest).map (fun j => keys.getD j 0)) (i0 :: rest)).2)).foldl
        max 0 :=
    mem_le_foldl_max _ 0 (List.mem_map_of_mem _ hmem)
  simp only [leafErr] at herr
  apply window_contains
  · rw [hst]
    exact foldl_min_le_mem _ i0 hmem
  · rw [hen]
    have := mem_le_foldl_max (i0 :: rest) i0 hmem
    omega
  · exact hlen
  · rw [ha, hbb, hme]
    by_cases hip : i < clamp_pos keys.length
        ((fit_linear ((i0 :: rest).map (fun j => keys.getD j 0)) (i0 :: rest)).1 *
          (keys.getD i 0 : ℚ) +
          (fit_linear ((i0 :: rest).map (fun j => keys.getD j 0)) (i0 :: rest)).2)
    · rw [if_pos hip] at herr
      omega
    · rw [if_neg hip] at herr
      omega
  · rw [ha, hbb, hme]
    by_cases hip : i < clamp_pos keys.length
        ((fit_linear ((i0 :: rest).map (fun j => keys.getD j 0)) (i0 :: rest)).1 *
          (keys.getD i 0 : ℚ) +
          (fit_linear ((i0 :: rest).map (fun j => keys.getD j 0)) (i0 :: rest)).2)
    · rw [if_pos hip] at herr
      omega
    · rw [if_neg hip] at herr
      omega

end LI

namespace LI

/-- Any window computed from a trained leaf (empty bucket or not) stays
strictly below n on the high side. -/
lemma bucketLeaf_hi_lt {keys : List ℕ} (hn : 0 < keys.length)
    {idxs : List ℕ} (hsub : ∀ j ∈ idxs, j < keys.length) (q : ℕ) :
    (rmiWindow (bucketLeaf keys idxs) keys.length q).2 < keys.length := by
  cases idxs with
  | nil =>
    have h0 : bucketLeaf keys [] = ⟨0, 0, 0, 0, 0⟩ := rfl
    rw [h0]
    simp [rmiWindow]
    omega
  | cons i0 rest =>
    have hen : (bucketLeaf keys (i0 :: rest)).end_idx =
        (i0 :: rest).foldl max i0 + 1 := rfl
    have hfm : (i0 :: rest).foldl max i0 < keys.length := by
      rcases foldl_max_mem (i0 :: rest) i0 with h | h
      · rw [h]
        exact hsub i0 (List.mem_cons_self _ _)
      · exact hsub _ h
    simp only [rmiWindow, hen]
    split_ifs <;> simp only [] <;> omega

/-- Shared helper: on a trained index, the leaf routed to for keys[i]
exists, its query-time window contains i, and every window it computes
stays below n on the high side. -/
lemma trained_window_mem (keys : List ℕ) (hs : keys.Sorted (· ≤ ·))
    (st0 st : RMIState) (hL : 0 < st0.num_leaves)
    (htr : rmiTrain st0 keys = .ok st) (i : ℕ) (hi : i < keys.length) :
    ∃ leaf,
      st.leaves.get? (routeLeaf st.root st.num_leaves keys.length
        (keys.getD i 0)) = some leaf ∧
      (rmiWindow leaf keys.length (keys.getD i 0)).1 ≤ i ∧
      i ≤ (rmiWindow leaf keys.length (keys.getD i 0)).2 ∧
      (∀ q, (rmiWindow leaf keys.length q).2 < keys.length) := by
  have hn : keys.length ≠ 0 := by omega
  rw [rmiTrain_ok hn] at htr
  obtain rfl : st =
      ⟨st0.num_leaves, rootModel keys, trainedLeaves st0.num_leaves keys⟩ := by
    cases htr
    rfl
  have hlt : routeLeaf (rootModel keys) st0.num_leaves keys.length
      (keys.getD i 0) < st0.num_leaves := routeLeaf_lt hL _
  have hget := trainedLeaves_get keys hlt
  refine ⟨bucketLeaf keys (bucket (rootModel keys) st0.num_leaves keys
    (routeLeaf (rootModel keys) st0.num_leaves keys.length (keys.getD i 0))),
    hget, ?_⟩
  have hmem : i ∈ bucket (rootModel keys) st0.num_leaves keys
      (routeLeaf (rootModel keys) st0.num_leaves keys.length (keys.getD i 0)) :=
    mem_bucket_iff.mpr ⟨hi, rfl⟩
  have hsub : ∀ j ∈ bucket (rootModel keys) st0.num_leaves keys
      (routeLeaf (rootModel keys) st0.num_leaves keys.length (keys.getD i 0)),
      j < keys.length := fun j hj => (mem_bucket_iff.mp hj).1
  have hhib : ∀ q, (rmiWindow (bucketLeaf keys (bucket (rootModel keys)
      st0.num_leaves keys (routeLeaf (rootModel keys) st0.num_leaves
      keys.length (keys.getD i 0)))) keys.length q).2 < keys.length :=
    fun q => bucketLeaf_hi_lt (by omega) hsub q
  cases hb : bucket (rootModel keys) st0.num_leaves keys
      (routeLeaf (rootModel keys) st0.num_leaves keys.length (keys.getD i 0)) with
  | nil =>
    rw [hb] at hmem
    cases hmem
  | cons b0 brest =>
    rw [hb] at hmem
    rw [hb] at hhib
    obtain ⟨hw1, hw2⟩ := bucketLeaf_window hmem hi
    exact ⟨hw1, hw2, hhib⟩

/-- Claim C2: for every key of the training array (routed by train to the
bucket that contains its index, necessarily non-empty), the key's true
array index lies inside the search window RMI::search computes for that
key at query time. -/
theorem claim_C2_error_bound (keys : List ℕ) (hs : keys.Sorted (· ≤ ·))
    (st0 st : RMIState) (hL : 0 < st0.num_leaves)
    (htr : rmiTrain st0 keys = .ok st) (i : ℕ) (hi : i < keys.length) :
    ∃ leaf,
      st.leaves.get? (routeLeaf st.root st.num_leaves keys.length
        (keys.getD i 0)) = some leaf ∧
      (rmiWindow leaf keys.length (keys.getD i 0)).1 ≤ i ∧
      i ≤ (rmiWindow leaf keys.length (keys.getD i 0)).2 := by
  obtain ⟨leaf, hget, hw1, hw2, _⟩ :=
    trained_window_mem keys hs st0 st hL htr i hi
  exact ⟨leaf, hget, hw1, hw2⟩

/-- Witness for claim C2: keys [3,5,9] with 2 leaves, index 1. -/
theorem claim_C2_witness :
    ∃ leaf,
      (RMIState.mk 2 (rootModel [3, 5, 9]) (trainedLeaves 2 [3, 5, 9])).leaves.get?
        (routeLeaf (RMIState.mk 2 (rootModel [3, 5, 9])
          (trainedLeaves 2 [3, 5, 9])).root 2 3 ([3, 5, 9].getD 1 0)) = some leaf ∧
      (rmiWindow leaf 3 ([3, 5, 9].getD 1 0)).1 ≤ 1 ∧
      1 ≤ (rmiWindow leaf 3 ([3, 5, 9].getD 1 0)).2 :=
  claim_C2_error_bound [3, 5, 9] (by decide) (rmiInit 2) _ (by decide) rfl 1
    (by decide)

end LI

namespace LI

/-- Unfolding of RMI::search on a state whose leaf access succeeds. -/
lemma rmiSearch_eq_of_get {st : RMIState} {keys : List ℕ} {q : ℕ}
    {leaf : LinearModel} (hn : keys.length ≠ 0)
    (hget : st.leaves.get? (routeLeaf st.root st.num_leaves keys.length q) =
      some leaf) :
    rmiSearch st keys q = .ok (binSearchRMI keys q
      (rmiWindow leaf keys.length q).1 (rmiWindow leaf keys.length q).2) := by
  simp only [rmiSearch, hn, if_false, hget]

/-- Claim C1: searching for any key of the array on a fully built index
(RMI trained with a positive number of leaves, or B+tree bulk-loaded with
order ≥ 2) reports found together with a valid position holding that key
(with duplicates, any matching position). -/
theorem claim_C1_round_trip (keys : List ℕ) (hs : keys.Sorted (· ≤ ·))
    (i : ℕ) (hi : i < keys.length) :
    (∀ st0 st : RMIState, 0 < st0.num_leaves → rmiTrain st0 keys = .ok st →
      ∃ p, rmiSearch st keys (keys.getD i 0) = .ok (some p) ∧
        p < keys.length ∧ keys.getD p 0 = keys.getD i 0) ∧
    (∀ ord : ℕ, 2 ≤ ord →
      ∃ p, bptSearch (bulkLoad ord keys) (keys.getD i 0) = some p ∧
        p < keys.length ∧ keys.getD p 0 = keys.getD i 0) := by
  constructor
  · intro st0 st hL htr
    have hn : keys.length ≠ 0 := by omega
    obtain ⟨leaf, hget, hwlo, hwhi, hhib⟩ :=
      trained_window_mem keys hs st0 st hL htr i hi
    have hsearch := rmiSearch_eq_of_get hn hget
    obtain ⟨m, hm⟩ :=
      binSearchRMI_found hs hwlo hwhi (hhib (keys.getD i 0)) rfl
    obtain ⟨hmk, hmlo, hmhi⟩ := binSearchRMI_sound hm
    refine ⟨m, ?_, ?_, hmk⟩
    · rw [hsearch, hm]
    · have := hhib (keys.getD i 0)
      omega
  · intro ord hord
    have hne : keys ≠ [] := by
      intro h
      subst h
      simp at hi
    obtain ⟨t, hbl, hcov⟩ := bulkLoad_covers hord hne
    obtain ⟨p, hp, hplen, hpk⟩ := coversB_found hs t 0 keys.length hcov
      (keys.getD i 0) i (Nat.zero_le i) hi rfl
    refine ⟨p, ?_, hplen, hpk⟩
    rw [hbl]
    exact hp

/-- Witness for claim C1: keys [3,5,9], querying the key at index 1 on a
2-leaf RMI and an order-2 B+tree. -/
theorem claim_C1_witness :
    (∃ p, rmiSearch ⟨2, rootModel [3, 5, 9], trainedLeaves 2 [3, 5, 9]⟩
        [3, 5, 9] ([3, 5, 9].getD 1 0) = .ok (some p) ∧
        p < [3, 5, 9].length ∧ [3, 5, 9].getD p 0 = [3, 5, 9].getD 1 0) ∧
    (∃ p, bptSearch (bulkLoad 2 [3, 5, 9]) ([3, 5, 9].getD 1 0) = some p ∧
        p < [3, 5, 9].length ∧ [3, 5, 9].getD p 0 = [3, 5, 9].getD 1 0) :=
  ⟨(claim_C1_round_trip [3, 5, 9] (by decide) 1 (by decide)).1 (rmiInit 2) _
      (by decide) rfl,
   (claim_C1_round_trip [3, 5, 9] (by decide) 1 (by decide)).2 2 (by decide)⟩

end LI

namespace LI

/-- Helper: a successful rmiTrain implies the key array was non-empty. -/
lemma rmiTrain_ok_len {st0 st : RMIState} {keys : List ℕ}
    (htr : rmiTrain st0 keys = .ok st) : keys.length ≠ 0 := by
  intro hn
  unfold rmiTrain at htr
  rw [if_pos hn] at htr
  cases htr

/-- Helper: positions reported by search on a trained RMI hold the query. -/
lemma rmiSearch_found_imp (keys : List ℕ) (hs : keys.Sorted (· ≤ ·))
    (st0 st : RMIState) (hL : 0 < st0.num_leaves)
    (htr : rmiTrain st0 keys = .ok st) (q p : ℕ)
    (hp : rmiSearch st keys q = .ok (some p)) :
    p < keys.length ∧ keys.getD p 0 = q := by
  have hn := rmiTrain_ok_len htr
  rw [rmiTrain_ok hn] at htr
  obtain rfl : st =
      ⟨st0.num_leaves, rootModel keys, trainedLeaves st0.num_leaves keys⟩ := by
    cases htr
    rfl
  have hlt : routeLeaf (rootModel keys) st0.num_leaves keys.length q <
      st0.num_leaves := routeLeaf_lt hL _
  have hget := trainedLeaves_get keys hlt
  have hsearch := @rmiSearch_eq_of_get
    ⟨st0.num_leaves, rootModel keys, trainedLeaves st0.num_leaves keys⟩ keys q
    (bucketLeaf keys (bucket (rootModel keys) st0.num_leaves keys
      (routeLeaf (rootModel keys) st0.num_leaves keys.length q))) hn hget
  rw [hsearch] at hp
  have hbin := Except.ok.inj hp
  obtain ⟨hpk, hplo, hphi⟩ := binSearchRMI_sound hbin
  have hhib := @bucketLeaf_hi_lt keys (by omega)
    (bucket (rootModel keys) st0.num_leaves keys
      (routeLeaf (rootModel keys) st0.num_leaves keys.length q))
    (fun j hj => (mem_bucket_iff.mp hj).1) q
  exact ⟨by omega, hpk⟩

/-- Helper: positions reported by search on a bulk-loaded tree hold the
query. -/
lemma bptSearch_found_imp (keys : List ℕ) (hs : keys.Sorted (· ≤ ·))
    (ord : ℕ) (hord : 2 ≤ ord) (q p : ℕ)
    (hp : bptSearch (bulkLoad ord keys) q = some p) :
    p < keys.length ∧ keys.getD p 0 = q := by
  by_cases hne : keys = []
  · subst hne
    simp [bulkLoad, bptSearch] at hp
  · obtain ⟨t, hbl, hcov⟩ := bulkLoad_covers hord hne
    rw [hbl] at hp
    exact coversB_sound t 0 keys.length hcov q p hp

/-- Helper: no position holds a key strictly between two distinct
consecutive array values. -/
lemma absent_between {keys : List ℕ} (hs : keys.Sorted (· ≤ ·)) {j q : ℕ}
    (hj : j + 1 < keys.length) (h1 : keys.getD j 0 < q)
    (h2 : q < keys.getD (j + 1) 0) :
    ∀ p, p < keys.length → keys.getD p 0 ≠ q := by
  intro p hp hcon
  by_cases hpj : p ≤ j
  · have := sorted_getD_le hs hpj (by omega)
    omega
  · have := sorted_getD_le hs (show j + 1 ≤ p by omega) hp
    omega

/-- Helper: a trained RMI reports not-found for absent keys. -/
lemma rmiSearch_not_found (keys : List ℕ) (hs : keys.Sorted (· ≤ ·))
    (st0 st : RMIState) (hL : 0 < st0.num_leaves)
    (htr : rmiTrain st0 keys = .ok st) (q : ℕ)
    (habs : ∀ p, p < keys.length → keys.getD p 0 ≠ q) :
    rmiSearch st keys q = .ok none := by
  have hn := rmiTrain_ok_len htr
  have htr2 := htr
  rw [rmiTrain_ok hn] at htr2
  obtain rfl : st =
      ⟨st0.num_leaves, rootModel keys, trainedLeaves st0.num_leaves keys⟩ := by
    cases htr2
    rfl
  have hlt : routeLeaf (rootModel keys) st0.num_leaves keys.length q <
      st0.num_leaves := routeLeaf_lt hL _
  have hget := trainedLeaves_get keys hlt
  have hsearch := @rmiSearch_eq_of_get
    ⟨st0.num_leaves, rootModel keys, trainedLeaves st0.num_leaves keys⟩ keys q
    (bucketLeaf keys (bucket (rootModel keys) st0.num_leaves keys
      (routeLeaf (rootModel keys) st0.num_leaves keys.length q))) hn hget
  rw [hsearch]
  cases ho : binSearchRMI keys q
      (rmiWindow (bucketLeaf keys (bucket (rootModel keys) st0.num_leaves keys
        (routeLeaf (rootModel keys) st0.num_leaves keys.length q)))
        keys.length q).1
      (rmiWindow (bucketLeaf keys (bucket (rootModel keys) st0.num_leaves keys
        (routeLeaf (rootModel keys) st0.num_leaves keys.length q)))
        keys.length q).2 with
  | none => rfl
  | some m =>
    obtain ⟨hpk, hplo, hphi⟩ := binSearchRMI_sound ho
    have hhib := @bucketLeaf_hi_lt keys (by omega)
      (bucket (rootModel keys) st0.num_leaves keys
        (routeLeaf (rootModel keys) st0.num_leaves keys.length q))
      (fun j hj => (mem_bucket_iff.mp hj).1) q
    exact absurd hpk (habs m (by omega))

/-- Helper: a bulk-loaded tree reports not-found for absent keys. -/
lemma bptSearch_not_found (keys : List ℕ) (hs : keys.Sorted (· ≤ ·))
    (ord : ℕ) (hord : 2 ≤ ord) (q : ℕ)
    (habs : ∀ p, p < keys.length → keys.getD p 0 ≠ q) :
    bptSearch (bulkLoad ord keys) q = none := by
  by_cases hne : keys = []
  · subst hne
    rfl
  · obtain ⟨t, hbl, hcov⟩ := bulkLoad_covers hord hne
    rw [hbl]
    show bptSearchNode t q = none
    cases ho : bptSearchNode t q with
    | none => rfl
    | some p =>
      obtain ⟨hplen, hpk⟩ := coversB_sound t 0 keys.length hcov q p ho
      exact absurd hpk (habs p hplen)

/-- Claim C3: on a built index over a sorted array, every found result
points at a position holding exactly the query key; consequently any key
strictly between two distinct consecutive array values is reported
not-found by both structures. -/
theorem claim_C3_exact_match (keys : List ℕ) (hs : keys.Sorted (· ≤ ·)) :
    (∀ st0 st q p, 0 < st0.num_leaves → rmiTrain st0 keys = .ok st →
      rmiSearch st keys q = .ok (some p) →
      p < keys.length ∧ keys.getD p 0 = q) ∧
    (∀ ord q p, 2 ≤ ord → bptSearch (bulkLoad ord keys) q = some p →
      p < keys.length ∧ keys.getD p 0 = q) ∧
    (∀ j q, j + 1 < keys.length → keys.getD j 0 < q →
      q < keys.getD (j + 1) 0 →
      (∀ st0 st, 0 < st0.num_leaves → rmiTrain st0 keys = .ok st →
        rmiSearch st keys q = .ok none) ∧
      (∀ ord, 2 ≤ ord → bptSearch (bulkLoad ord keys) q = none)) := by
  refine ⟨?_, ?_, ?_⟩
  · intro st0 st q p hL htr hp
    exact rmiSearch_found_imp keys hs st0 st hL htr q p hp
  · intro ord q p hord hp
    exact bptSearch_found_imp keys hs ord hord q p hp
  · intro j q hj h1 h2
    have habs := absent_between hs hj h1 h2
    exact ⟨fun st0 st hL htr => rmiSearch_not_found keys hs st0 st hL htr q habs,
      fun ord hord => bptSearch_not_found keys hs ord hord q habs⟩

/-- Witness for claim C3: key 5 lies strictly between 3 and 7, so both
structures report not-found on keys [3,7]. -/
theorem claim_C3_witness :
    rmiSearch ⟨1, rootModel [3, 7], trainedLeaves 1 [3, 7]⟩ [3, 7] 5 =
      .ok none ∧
    bptSearch (bulkLoad 2 [3, 7]) 5 = none := by
  have h := (claim_C3_exact_match [3, 7] (by decide)).2.2 0 5 (by decide)
    (by decide) (by decide)
  exact ⟨h.1 (rmiInit 1) _ (by decide) rfl, h.2 2 (by decide)⟩

end LI

namespace LI

/-! ### Sums as Finset sums, and the sign of the root slope -/

lemma map_getD_range {α : Type} (d : α) :
    ∀ (l : List α), (List.range l.length).map (fun i => l.getD i d) = l := by
  intro l
  induction l with
  | nil => rfl
  | cons x xs ih =>
    rw [List.length_cons, List.range_succ_eq_map, List.map_cons, List.map_map]
    have h1 : (x :: xs).getD 0 d = x := rfl
    have h2 : ((fun i => (x :: xs).getD i d) ∘ Nat.succ) =
        (fun i => xs.getD i d) := funext (fun i => rfl)
    rw [h1, h2, ih]

lemma sum_map_range (f : ℕ → ℚ) :
    ∀ n, ((List.range n).map f).sum = ∑ i ∈ Finset.range n, f i := by
  intro n
  induction n with
  | zero => simp
  | succ m ih =>
    rw [List.range_succ, List.map_append, List.sum_append,
      Finset.sum_range_succ, ih]
    simp

lemma sumX_eq (xs : List ℕ) :
    sumX xs = ∑ i ∈ Finset.range xs.length, (xs.getD i 0 : ℚ) := by
  unfold sumX
  conv_lhs => rw [← map_getD_range 0 xs]
  rw [List.map_map]
  exact sum_map_range _ xs.length

lemma sumX2_eq (xs : List ℕ) :
    sumX2 xs = ∑ i ∈ Finset.range xs.length,
      (xs.getD i 0 : ℚ) * (xs.getD i 0 : ℚ) := by
  unfold sumX2
  conv_lhs => rw [← map_getD_range 0 xs]
  rw [List.map_map]
  exact sum_map_range _ xs.length

lemma sumY_range (n : ℕ) :
    sumY (List.range n) = ∑ i ∈ Finset.range n, (i : ℚ) := by
  unfold sumY
  exact sum_map_range _ n

lemma zipRange_sum (xs : List ℕ) :
    ∀ k, ((xs.zip (List.range' k xs.length)).map
        (fun p : ℕ × ℕ => (p.1 : ℚ) * (p.2 : ℚ))).sum =
      ∑ i ∈ Finset.range xs.length, (xs.getD i 0 : ℚ) * ((k + i : ℕ) : ℚ) := by
  induction xs with
  | nil => intro k; simp
  | cons x t ih =>
    intro k
    rw [List.length_cons, List.range'_succ]
    simp only [List.zip_cons_cons, List.map_cons, List.sum_cons]
    rw [ih (k + 1)]
    have hxk : ∀ i, (x :: t).getD (i + 1) 0 = t.getD i 0 := fun i => rfl
    calc (x : ℚ) * (k : ℚ) +
        ∑ i ∈ Finset.range t.length, (t.getD i 0 : ℚ) * ((k + 1 + i : ℕ) : ℚ)
        = (∑ i ∈ Finset.range t.length,
            ((x :: t).getD (i + 1) 0 : ℚ) * ((k + (i + 1) : ℕ) : ℚ)) +
          ((x :: t).getD 0 0 : ℚ) * ((k + 0 : ℕ) : ℚ) := by
          rw [add_comm]
          congr 1
          apply Finset.sum_congr rfl
          intro i _
          rw [hxk i, show k + (i + 1) = k + 1 + i by omega]
      _ = ∑ i ∈ Finset.range (t.length + 1),
            ((x :: t).getD i 0 : ℚ) * ((k + i : ℕ) : ℚ) :=
          (Finset.sum_range_succ'
            (fun i => ((x :: t).getD i 0 : ℚ) * ((k + i : ℕ) : ℚ))
            t.length).symm

lemma sumXY_eq (xs : List ℕ) :
    sumXY xs (List.range xs.length) =
      ∑ i ∈ Finset.range xs.length, (xs.getD i 0 : ℚ) * (i : ℚ) := by
  unfold sumXY
  rw [List.range_eq_range', zipRange_sum xs 0]
  apply Finset.sum_congr rfl
  intro i _
  norm_num

lemma rootModel_slope_nonneg {keys : List ℕ} (hs : keys.Sorted (· ≤ ·)) :
    0 ≤ (rootModel keys).a := by
  have hra : (rootModel keys).a =
      (fit_linear keys (List.range keys.length)).1 := rfl
  rw [hra]
  unfold fit_linear
  by_cases hn : keys.length = 0
  · rw [if_pos (by simpa using hn)]
  · rw [if_neg (by simpa using hn)]
    simp only [List.length_range]
    by_cases hdeg : |(keys.length : ℚ) * sumX2 keys - sumX keys * sumX keys| < tol
    · rw [if_pos hdeg]
    · rw [if_neg hdeg]
      simp only
      apply div_nonneg
      · -- Chebyshev: sorted keys monovary with the index sequence
        have htk : (List.range keys.length).take keys.length =
            List.range keys.length :=
          List.take_of_length_le (le_of_eq (List.length_range _))
        rw [htk, sumXY_eq, sumX_eq, sumY_range]
        have hmono : MonovaryOn (fun i => (keys.getD i 0 : ℚ))
            (fun i => (i : ℚ)) (Finset.range keys.length) := by
          intro i hi j hj hg
          have hg2 : (i : ℚ) < (j : ℚ) := hg
          have hij : i < j := by exact_mod_cast hg2
          have hle := sorted_getD_le hs (le_of_lt hij) (Finset.mem_range.mp hj)
          show (keys.getD i 0 : ℚ) ≤ (keys.getD j 0 : ℚ)
          exact_mod_cast hle
        have hcheb := hmono.sum_mul_sum_le_card_mul_sum
        rw [Finset.card_range] at hcheb
        linarith
      · -- Cauchy-Schwarz: the denominator is a scaled variance
        have hcs := sq_sum_le_card_mul_sum_sq
          (s := Finset.range keys.length)
          (f := fun i => (keys.getD i 0 : ℚ))
        rw [Finset.card_range] at hcs
        rw [sumX_eq, sumX2_eq]
        have hsqs : ∑ i ∈ Finset.range keys.length, (keys.getD i 0 : ℚ) ^ 2 =
            ∑ i ∈ Finset.range keys.length,
              (keys.getD i 0 : ℚ) * (keys.getD i 0 : ℚ) := by
          apply Finset.sum_congr rfl
          intro i _
          ring
        rw [hsqs] at hcs
        nlinarith [hcs]

end LI


namespace LI

lemma routeLeaf_mono {keys : List ℕ} (hs : keys.Sorted (· ≤ ·)) (L : ℕ)
    {i j : ℕ} (hij : i ≤ j) (hj : j < keys.length) :
    routeLeaf (rootModel keys) L keys.length (keys.getD i 0) ≤
      routeLeaf (rootModel keys) L keys.length (keys.getD j 0) := by
  unfold routeLeaf
  apply bucketId_mono
  apply clamp_pos_mono
  have ha := rootModel_slope_nonneg hs
  have hx : (keys.getD i 0 : ℚ) ≤ (keys.getD j 0 : ℚ) := by
    exact_mod_cast sorted_getD_le hs hij hj
  have := mul_le_mul_of_nonneg_left hx ha
  linarith

lemma get?_trained {L : ℕ} (keys : List ℕ) {l : ℕ} {leaf : LinearModel}
    (h : (trainedLeaves L keys).get? l = some leaf) :
    l < L ∧ leaf = bucketLeaf keys (bucket (rootModel keys) L keys l) := by
  have hlt : l < L := by
    have := List.get?_eq_some.mp h
    obtain ⟨hb, _⟩ := this
    simpa [trainedLeaves] using hb
  rw [trainedLeaves_get keys hlt] at h
  exact ⟨hlt, (Option.some.inj h).symm⟩

lemma bucketLeaf_end_zero_iff {keys idxs : List ℕ} :
    (bucketLeaf keys idxs).end_idx = 0 ↔ idxs = [] := by
  cases idxs with
  | nil => simp [bucketLeaf]
  | cons i0 rest =>
    constructor
    · intro h
      have : (bucketLeaf keys (i0 :: rest)).end_idx =
          (i0 :: rest).foldl max i0 + 1 := rfl
      omega
    · intro h
      cases h

lemma bucketLeaf_start_mem (keys : List ℕ) (i0 : ℕ) (rest : List ℕ) :
    (bucketLeaf keys (i0 :: rest)).start_idx ∈ (i0 :: rest) := by
  have hst : (bucketLeaf keys (i0 :: rest)).start_idx =
      (i0 :: rest).foldl min i0 := rfl
  rw [hst]
  rcases foldl_min_mem (i0 :: rest) i0 with h | h
  · rw [h]
    exact List.mem_cons_self _ _
  · exact h

lemma bucketLeaf_max_mem (keys : List ℕ) (i0 : ℕ) (rest : List ℕ) :
    (bucketLeaf keys (i0 :: rest)).end_idx =
      (i0 :: rest).foldl max i0 + 1 ∧
    (i0 :: rest).foldl max i0 ∈ (i0 :: rest) := by
  refine ⟨rfl, ?_⟩
  rcases foldl_max_mem (i0 :: rest) i0 with h | h
  · rw [h]
    exact List.mem_cons_self _ _
  · exact h

/-- Claim C10: a trained RMI partitions the sorted array monotonically:
the root slope is non-negative, the routed leaf id is monotone in the
array index, every index lies inside the recorded segment of its own
leaf, every recorded segment routes back exactly to its leaf
(contiguity), and non-empty segments of distinct leaves are disjoint and
ordered by leaf id; together these make the non-empty segments a cover of
[0, n) by consecutive runs. -/
theorem claim_C10_partition (keys : List ℕ) (hs : keys.Sorted (· ≤ ·))
    (st0 st : RMIState) (hL : 0 < st0.num_leaves)
    (htr : rmiTrain st0 keys = .ok st) :
    0 ≤ st.root.a ∧
    (∀ i j, i ≤ j → j < keys.length →
      routeLeaf st.root st.num_leaves keys.length (keys.getD i 0) ≤
        routeLeaf st.root st.num_leaves keys.length (keys.getD j 0)) ∧
    (∀ i, i < keys.length → ∃ leaf,
      st.leaves.get? (routeLeaf st.root st.num_leaves keys.length
        (keys.getD i 0)) = some leaf ∧
      leaf.start_idx ≤ i ∧ i < leaf.end_idx) ∧
    (∀ l leaf, st.leaves.get? l = some leaf → leaf.end_idx ≠ 0 →
      ∀ i, leaf.start_idx ≤ i → i < leaf.end_idx →
        routeLeaf st.root st.num_leaves keys.length (keys.getD i 0) = l) ∧
    (∀ l1 l2 leaf1 leaf2, l1 < l2 →
      st.leaves.get? l1 = some leaf1 → st.leaves.get? l2 = some leaf2 →
      leaf1.end_idx ≠ 0 → leaf2.end_idx ≠ 0 →
      leaf1.end_idx ≤ leaf2.start_idx) := by
  have hn := rmiTrain_ok_len htr
  rw [rmiTrain_ok hn] at htr
  obtain rfl : st =
      ⟨st0.num_leaves, rootModel keys, trainedLeaves st0.num_leaves keys⟩ := by
    cases htr
    rfl
  refine ⟨rootModel_slope_nonneg hs, ?_, ?_, ?_, ?_⟩
  · intro i j hij hj
    exact routeLeaf_mono hs st0.num_leaves hij hj
  · -- coverage
    intro i hi
    have hlt : routeLeaf (rootModel keys) st0.num_leaves keys.length
        (keys.getD i 0) < st0.num_leaves := routeLeaf_lt hL _
    refine ⟨bucketLeaf keys (bucket (rootModel keys) st0.num_leaves keys
      (routeLeaf (rootModel keys) st0.num_leaves keys.length (keys.getD i 0))),
      trainedLeaves_get keys hlt, ?_⟩
    have hmem : i ∈ bucket (rootModel keys) st0.num_leaves keys
        (routeLeaf (rootModel keys) st0.num_leaves keys.length (keys.getD i 0)) :=
      mem_bucket_iff.mpr ⟨hi, rfl⟩
    cases hb : bucket (rootModel keys) st0.num_leaves keys
        (routeLeaf (rootModel keys) st0.num_leaves keys.length (keys.getD i 0)) with
    | nil =>
      rw [hb] at hmem
      cases hmem
    | cons b0 brest =>
      rw [hb] at hmem
      constructor
      · exact foldl_min_le_mem _ b0 hmem
      · have hend := (bucketLeaf_max_mem keys b0 brest).1
        have := mem_le_foldl_max (b0 :: brest) b0 hmem
        omega
  · -- contiguity
    intro l leaf hget hend i h1 h2
    show routeLeaf (rootModel keys) st0.num_leaves keys.length (keys.getD i 0) = l
    obtain ⟨hlt, rfl⟩ := get?_trained keys hget
    have hbne : bucket (rootModel keys) st0.num_leaves keys l ≠ [] := by
      intro hc
      exact hend (bucketLeaf_end_zero_iff.mpr hc)
    cases hb : bucket (rootModel keys) st0.num_leaves keys l with
    | nil => exact absurd hb hbne
    | cons b0 brest =>
      have hsv : (bucketLeaf keys
          (bucket (rootModel keys) st0.num_leaves keys l)).start_idx =
          (bucketLeaf keys (b0 :: brest)).start_idx := by
        rw [hb]
      have hev : (bucketLeaf keys
          (bucket (rootModel keys) st0.num_leaves keys l)).end_idx =
          (b0 :: brest).foldl max b0 + 1 := by
        rw [hb]
        exact (bucketLeaf_max_mem keys b0 brest).1
      rw [hsv] at h1
      rw [hev] at h2
      have hsmem : (bucketLeaf keys (b0 :: brest)).start_idx ∈
          bucket (rootModel keys) st0.num_leaves keys l := by
        rw [hb]
        exact bucketLeaf_start_mem keys b0 brest
      have hmmem : (b0 :: brest).foldl max b0 ∈
          bucket (rootModel keys) st0.num_leaves keys l := by
        rw [hb]
        exact (bucketLeaf_max_mem keys b0 brest).2
      have hsrt := (mem_bucket_iff.mp hsmem).2
      have hmrt := (mem_bucket_iff.mp hmmem).2
      have hmn := (mem_bucket_iff.mp hmmem).1
      have him : i ≤ (b0 :: brest).foldl max b0 := by omega
      have hin : i < keys.length := by omega
      have hle1 := routeLeaf_mono hs st0.num_leaves h1 hin
      have hle2 := routeLeaf_mono hs st0.num_leaves him hmn
      omega
  · -- disjoint, ordered segments
    intro l1 l2 leaf1 leaf2 h12 hget1 hget2 he1 he2
    obtain ⟨hlt1, rfl⟩ := get?_trained keys hget1
    obtain ⟨hlt2, rfl⟩ := get?_trained keys hget2
    have hb1 : bucket (rootModel keys) st0.num_leaves keys l1 ≠ [] := by
      intro hc
      exact he1 (bucketLeaf_end_zero_iff.mpr hc)
    have hb2 : bucket (rootModel keys) st0.num_leaves keys l2 ≠ [] := by
      intro hc
      exact he2 (bucketLeaf_end_zero_iff.mpr hc)
    cases hbb1 : bucket (rootModel keys) st0.num_leaves keys l1 with
    | nil => exact absurd hbb1 hb1
    | cons a1 r1 =>
      cases hbb2 : bucket (rootModel keys) st0.num_leaves keys l2 with
      | nil => exact absurd hbb2 hb2
      | cons a2 r2 =>
        have hendv1 := (bucketLeaf_max_mem keys a1 r1).1
        have hmm1 : (a1 :: r1).foldl max a1 ∈
            bucket (rootModel keys) st0.num_leaves keys l1 := by
          rw [hbb1]
          exact (bucketLeaf_max_mem keys a1 r1).2
        have hsm2 : (bucketLeaf keys (a2 :: r2)).start_idx ∈
            bucket (rootModel keys) st0.num_leaves keys l2 := by
          rw [hbb2]
          exact bucketLeaf_start_mem keys a2 r2
        have hr1 := (mem_bucket_iff.mp hmm1).2
        have hr2 := (mem_bucket_iff.mp hsm2).2
        have hn1 := (mem_bucket_iff.mp hmm1).1
        have hn2 := (mem_bucket_iff.mp hsm2).1
        by_contra hcon
        push_neg at hcon
        have hle : (bucketLeaf keys (a2 :: r2)).start_idx ≤
            (a1 :: r1).foldl max a1 := by omega
        have := routeLeaf_mono hs st0.num_leaves hle hn1
        omega

end LI

namespace LI

theorem claim_C10_witness :
    ∃ st : RMIState, rmiTrain (rmiInit 2) [3, 5, 9] = .ok st ∧
      (0 ≤ st.root.a ∧
      (∀ i j, i ≤ j → j < [3, 5, 9].length →
        routeLeaf st.root st.num_leaves [3, 5, 9].length ([3, 5, 9].getD i 0) ≤
          routeLeaf st.root st.num_leaves [3, 5, 9].length ([3, 5, 9].getD j 0)) ∧
      (∀ i, i < [3, 5, 9].length → ∃ leaf,
        st.leaves.get? (routeLeaf st.root st.num_leaves [3, 5, 9].length
          ([3, 5, 9].getD i 0)) = some leaf ∧
        leaf.start_idx ≤ i ∧ i < leaf.end_idx) ∧
      (∀ l leaf, st.leaves.get? l = some leaf → leaf.end_idx ≠ 0 →
        ∀ i, leaf.start_idx ≤ i → i < leaf.end_idx →
          routeLeaf st.root st.num_leaves [3, 5, 9].length
            ([3, 5, 9].getD i 0) = l) ∧
      (∀ l1 l2 leaf1 leaf2, l1 < l2 →
        st.leaves.get? l1 = some leaf1 → st.leaves.get? l2 = some leaf2 →
        leaf1.end_idx ≠ 0 → leaf2.end_idx ≠ 0 →
        leaf1.end_idx ≤ leaf2.start_idx)) :=
  ⟨⟨2, rootModel [3, 5, 9], trainedLeaves 2 [3, 5, 9]⟩, rfl,
    claim_C10_partition [3, 5, 9] (by decide) (rmiInit 2)
      ⟨2, rootModel [3, 5, 9], trainedLeaves 2 [3, 5, 9]⟩ (by decide) rfl⟩

end LI
